import Mathlib

/-!
# A verification development for `grades.c`

`grades.c` keeps an ordered collection of students; each student owns an
ordered collection of courses with integer grades.  The collections are the
generic linked list of `linked-list.h`, whose elements are deep copies made
by a caller supplied clone function.

The embedding below is shallow:

* a `struct list*` is a Lean `List` holding the container-owned clones in
  insertion order; a `list_begin` / `list_next` / `list_get` loop is a
  recursion over that list and `list_size` is its length;
* a `struct student*` that points into the students list is a position
  (`Fin`) in that list, and a write through the pointer is `List.set`;
* a possibly-`NULL` pointer argument is an `Option`;
* `malloc` is driven by an allocation plan (`Alloc`), so that every
  allocation site can fail;
* `printf` appends to the text that the function returns next to its
  return code;
* `float` is IEEE-754 binary32 with round-to-nearest-even, modelled on `ℚ`;
* for the claims about ownership and release the clone and destroy helpers
  are embedded a second time with the allocated blocks made explicit
  (`Mem`, `clone_student_mem`, `grades_destroy`); forgetting the blocks gives
  back the first embedding (`clone_student_mem_val`).
-/

set_option autoImplicit false

namespace Grades

/-! ## Allocation -/

/-- The allocation plan of one call: `none` means every allocation request
succeeds, `some k` means the next `k` requests succeed and the one after
them fails.  Every function of `grades.c` returns as soon as one allocation
has failed without allocating again, so one failure point per call covers
every way in which `malloc` can behave during that call. -/
abbrev Alloc := Option Nat

/-- One `malloc` request: whether it succeeds, and the plan for the
requests that follow. -/
def malloc : Alloc → Bool × Alloc
  | none => (true, none)
  | some 0 => (false, none)
  | some (k + 1) => (true, some k)

/-- `string_duplicate`: one allocation, then a byte copy of the string. -/
def string_duplicate (h : Alloc) (str : String) : Option String × Alloc :=
  match malloc h with
  | (true, h1) => (some str, h1)
  | (false, h1) => (none, h1)

/-! ## Data model -/

/-- `struct course`. -/
structure course where
  name : String
  grade : Int
deriving DecidableEq

/-- `struct student`; `courses` is the list created with
`list_init(clone_course, destroy_course)`. -/
structure student where
  name : String
  id : Int
  courses : List course
deriving DecidableEq

/-- `struct grades`; `students` is the list created with
`list_init(clone_student, destroy_student)`. -/
structure grades where
  students : List student
deriving DecidableEq

/-! ## The generic ordered container (`linked-list.h`) -/

/-- Modelled from the spec: `list_init` of `linked-list.h`, whose
implementation is not part of `grades.c`.  "initialize(copy_fn, destroy_fn)
→ new empty container"; the callers test the result against `NULL`, so the
creation is one allocation request that may fail. -/
def list_init {α : Type} (h : Alloc) : Option (List α) × Alloc :=
  match malloc h with
  | (true, h1) => (some [], h1)
  | (false, h1) => (none, h1)

/-- Modelled from the spec: `list_push_back` of `linked-list.h`, whose
implementation is not part of `grades.c`.  "append(container, element) →
uses copy_fn to clone the given element and appends the clone at the end,
preserving existing order; on clone failure the container is left unchanged
and the operation fails."  The result is the return code (0 on success),
the container afterwards, and the remaining allocation plan. -/
def list_push_back {α : Type} (copy_fn : Alloc → α → Option α × Alloc)
    (h : Alloc) (l : List α) (element : α) : Int × List α × Alloc :=
  match copy_fn h element with
  | (some clone, h1) => (0, l ++ [clone], h1)
  | (none, h1) => (1, l, h1)

/-! ## Helpers of `grades.c` -/

/-- `find_student_by_id`: the first student of the list whose id is `id`,
as a position in the list (`NULL` is `none`). -/
def find_student_by_id : (students : List student) → Int → Option (Fin students.length)
  | [], _ => none
  | s :: t, id =>
    if s.id = id then some ⟨0, Nat.succ_pos _⟩
    else (find_student_by_id t id).map Fin.succ

/-- `clone_course`: a fresh record and a fresh copy of the name. -/
def clone_course (h : Alloc) (orig : course) : Option course × Alloc :=
  match malloc h with
  | (false, h1) => (none, h1)
  | (true, h1) =>
    match string_duplicate h1 orig.name with
    | (none, h2) => (none, h2)
    | (some nm, h2) => (some ⟨nm, orig.grade⟩, h2)

/-- The loop of `clone_student` that pushes every course of the original
onto the clone's course list `acc`; `none` when a push fails. -/
def clone_courses (h : Alloc) (acc : List course) : List course → Option (List course) × Alloc
  | [] => (some acc, h)
  | c :: t =>
    match list_push_back clone_course h acc c with
    | (r, acc1, h1) => if r ≠ 0 then (none, h1) else clone_courses h1 acc1 t

/-- `clone_student`: a fresh record, a fresh copy of the name, a fresh
course list holding a clone of every course. -/
def clone_student (h : Alloc) (orig : student) : Option student × Alloc :=
  match malloc h with
  | (false, h1) => (none, h1)
  | (true, h1) =>
    match string_duplicate h1 orig.name with
    | (none, h2) => (none, h2)
    | (some nm, h2) =>
      match list_init h2 with
      | (none, h3) => (none, h3)
      | (some cs, h3) =>
        match clone_courses h3 cs orig.courses with
        | (none, h4) => (none, h4)
        | (some cs1, h4) => (some ⟨nm, orig.id, cs1⟩, h4)

/-! ## The public operations -/

/-- `grades_init`: `none` is the `NULL` handle. -/
def grades_init (h : Alloc) : Option grades :=
  match malloc h with
  | (false, _) => none
  | (true, h1) =>
    match list_init h1 with
    | (none, _) => none
    | (some l, _) => some ⟨l⟩

/-- `grades_add_student`: the return code and the store after the call. -/
def grades_add_student (h : Alloc) (grades : Option grades) (name : Option String)
    (id : Int) : Int × Option Grades.grades :=
  match grades, name with
  | none, _ => (1, none)
  | some g, none => (1, some g)
  | some g, some nm =>
    if (find_student_by_id g.students id).isSome then (1, some g)
    else
      match malloc h with
      | (false, _) => (1, some g)
      | (true, h1) =>
        match string_duplicate h1 nm with
        | (none, _) => (1, some g)
        | (some nm1, h2) =>
          match list_init h2 with
          | (none, _) => (1, some g)
          | (some cs, h3) =>
            match list_push_back clone_student h3 g.students ⟨nm1, id, cs⟩ with
            | (r, l, _) => if r ≠ 0 then (1, some ⟨l⟩) else (0, some ⟨l⟩)

/-- The duplicate-course loop of `grades_add_grade`: whether some course of
the list has the name `name` (`strcmp(course->name, name) == 0`). -/
def has_course : List course → String → Bool
  | [], _ => false
  | c :: t, name => if c.name = name then true else has_course t name

/-- `grades_add_grade`: the return code and the store after the call. -/
def grades_add_grade (h : Alloc) (grades : Option grades) (name : Option String)
    (id : Int) (grade : Int) : Int × Option Grades.grades :=
  match grades, name with
  | none, _ => (1, none)
  | some g, none => (1, some g)
  | some g, some nm =>
    if grade < 0 ∨ grade > 100 then (1, some g)
    else
      match find_student_by_id g.students id with
      | none => (1, some g)
      | some i =>
        let student := g.students.get i
        if has_course student.courses nm then (1, some g)
        else
          match malloc h with
          | (false, _) => (1, some g)
          | (true, h1) =>
            match string_duplicate h1 nm with
            | (none, _) => (1, some g)
            | (some nm1, h2) =>
              match list_push_back clone_course h2 student.courses ⟨nm1, grade⟩ with
              | (r, cs, _) =>
                let g1 : Grades.grades := ⟨g.students.set i { student with courses := cs }⟩
                if r ≠ 0 then (1, some g1) else (0, some g1)

/-! ## Single-precision arithmetic -/

/-- The nearest integer to `t`, ties going to the even one. -/
def round_half_even (t : ℚ) : ℤ :=
  if t - ⌊t⌋ < 1 / 2 then ⌊t⌋
  else if 1 / 2 < t - ⌊t⌋ then ⌊t⌋ + 1
  else if ⌊t⌋ % 2 = 0 then ⌊t⌋ else ⌊t⌋ + 1

/-- The exponent of the unit in the last place that binary32 offers around
`q`: a significand of 24 bits, and no exponent below that of the
subnormals, `-149`. -/
def f32_ulp_exp (q : ℚ) : ℤ := max (Int.log 2 |q| - 23) (-149)

/-- The binary32 value nearest to `q` (round to nearest, ties to even),
which is how C converts to `float` and rounds each `float` operation when
`float` expressions are evaluated in their own format (`FLT_EVAL_METHOD`
0, as on x86-64 and AArch64).
Overflow to an infinity is not represented: the operands met in
`grades_calc_avg` are C `int` grades and a `size_t` count that is at least
one, a running sum of such grades stops growing long before it reaches
`2^128`, and the count is below `2^64`. -/
def f32_round (q : ℚ) : ℚ :=
  round_half_even (q / 2 ^ f32_ulp_exp q) * 2 ^ f32_ulp_exp q

/-- The loop of `grades_calc_avg`: `sum += course->grade` for every course
in list order; the grade is converted to `float` and the addition is a
`float` addition. -/
def sum_grades (sum : ℚ) : List course → ℚ
  | [] => sum
  | c :: t => sum_grades (f32_round (sum + f32_round c.grade)) t

/-- `grades_calc_avg`.  The argument `out` is `none` for a `NULL` pointer and
`some v` for a pointer to a cell that holds `v`; the result is the returned
`float` and the cell after the call (the name written there is `none` for
`NULL`). -/
def grades_calc_avg (h : Alloc) (grades : Option grades) (id : Int)
    (out : Option (Option String)) : ℚ × Option (Option String) :=
  match grades, out with
  | none, none => (-1, none)
  | none, some _ => (-1, some none)
  | some _, none => (-1, none)
  | some g, some _ =>
    match find_student_by_id g.students id with
    | none => (-1, some none)
    | some i =>
      let student := g.students.get i
      let course_count := student.courses.length
      if course_count = 0 then
        match string_duplicate h student.name with
        | (some nm, _) => (0, some (some nm))
        | (none, _) => (-1, some none)
      else
        let sum := sum_grades 0 student.courses
        match string_duplicate h student.name with
        | (none, _) => (-1, some none)
        | (some nm, _) => (f32_round (sum / f32_round course_count), some (some nm))

/-! ## Printing -/

/-- `printf("%d", i)`. -/
def print_int (i : Int) : String := toString i

/-- The course loop of `grades_print_student`: for each course the text
`" %s %d"`, and a `","` when another course follows. -/
def print_courses : List course → String
  | [] => ""
  | c :: t =>
    " " ++ c.name ++ " " ++ print_int c.grade ++ (if t.isEmpty then "" else ",")
      ++ print_courses t

/-- `grades_print_student`: the return code and the text written to the
standard output. -/
def grades_print_student (grades : Option grades) (id : Int) : Int × String :=
  match grades with
  | none => (1, "")
  | some g =>
    match find_student_by_id g.students id with
    | none => (1, "")
    | some i =>
      let student := g.students.get i
      (0, student.name ++ " " ++ print_int student.id ++ ":"
            ++ print_courses student.courses ++ "\n")

/-- The loop of `grades_print_all` over the students that remain to be
printed, `out` being the text written so far. -/
def print_all_loop (grades : Option grades) (out : String) : List student → Int × String
  | [] => (0, out)
  | s :: t =>
    match grades_print_student grades s.id with
    | (r, text) => if r ≠ 0 then (1, out ++ text) else print_all_loop grades (out ++ text) t

/-- `grades_print_all`: the return code and the text written to the
standard output. -/
def grades_print_all (grades : Option grades) : Int × String :=
  match grades with
  | none => (1, "")
  | some g => print_all_loop (some g) "" g.students

/-! ## Sequences of calls -/

/-- One call of a mutating operation of the interface, with the allocation
plan under which it runs. -/
inductive call where
  | add_student (h : Alloc) (name : Option String) (id : Int)
  | add_grade (h : Alloc) (name : Option String) (id : Int) (grade : Int)

/-- The store after one call. -/
def call.apply (g : Option grades) : call → Option grades
  | .add_student h name id => (grades_add_student h g name id).2
  | .add_grade h name id grade => (grades_add_grade h g name id grade).2

/-- The store after a sequence of calls, made in list order. -/
def run (g : Option grades) : List call → Option grades
  | [] => g
  | c :: t => run (c.apply g) t

/-- The id that an `add_student` call passes. -/
def call.student_id : call → Option Int
  | .add_student _ _ id => some id
  | .add_grade _ _ _ _ => none

/-- The (name, id) that an `add_student` call with a present name passes. -/
def call.student_key : call → Option (String × Int)
  | .add_student _ (some name) id => some (name, id)
  | .add_student _ none _ => none
  | .add_grade _ _ _ _ => none

/-- The (name, id) of a stored student. -/
def student.key (s : student) : String × Int := (s.name, s.id)

/-- The text of one course in a printed line, `" %s %d"`. -/
def course_text (c : course) : String := " " ++ c.name ++ " " ++ print_int c.grade

/-! ## Example stores -/

/-- Alice, id 1, with the courses Math 90 and Physics 85. -/
def alice : student := ⟨"Alice", 1, [⟨"Math", 90⟩, ⟨"Physics", 85⟩]⟩

/-- Bob, id 2, with no course. -/
def bob : student := ⟨"Bob", 2, []⟩

/-- Carol, id 4, with the courses Math 90, Physics 80 and Chemistry 100. -/
def carol : student := ⟨"Carol", 4, [⟨"Math", 90⟩, ⟨"Physics", 80⟩, ⟨"Chemistry", 100⟩]⟩

/-- A student with `n` courses named by the decimal numerals `0`, ..., `n-1`,
each with grade 1. -/
def ones_student (n : ℕ) : student :=
  ⟨"Dana", 3, (List.range n).map fun k => ⟨toString k, 1⟩⟩

/-! ## Properties of the data model -/

/-- The arithmetic mean of the grades of a course list: their sum divided
by their number, as an exact rational number. -/
def mean (l : List course) : ℚ := ((l.map course.grade).sum : ℤ) / (l.length : ℚ)

/-- "Every `id` appears at most once among stored students." -/
def ids_distinct (g : grades) : Prop := (g.students.map student.id).Nodup

instance (g : grades) : Decidable (ids_distinct g) := by
  unfold ids_distinct; infer_instance

/-- "Within one student, no two courses share the same name." -/
def courses_distinct (g : grades) : Prop :=
  ∀ s ∈ g.students, (s.courses.map course.name).Nodup

/-- "`grade` is always in [0,100] for any stored course." -/
def grades_in_range (g : grades) : Prop :=
  ∀ s ∈ g.students, ∀ c ∈ s.courses, 0 ≤ c.grade ∧ c.grade ≤ 100

/-- The line of one student in a report: `<name> <id>:`, the texts of its
courses in insertion order with a comma between consecutive ones, and a
newline. -/
def student_line (s : student) : String :=
  s.name ++ " " ++ print_int s.id ++ ":" ++ ",".intercalate (s.courses.map course_text) ++ "\n"

/-- The calls that add Alice (id 1), Bob (id 2) and the grade Math 90 for
id 1. -/
def alice_bob_calls : List call :=
  [.add_student none (some "Alice") 1, .add_student none (some "Bob") 2,
    .add_grade none (some "Math") 1 90]

/-- The decimal numeral of `k`, most significant digit first (the empty
string for 0). -/
def numeral (k : ℕ) : String := String.mk ((Nat.digits 10 k).reverse.map Nat.digitChar)

/-- A student with `n` courses named by the numerals of `1`, ..., `n`, each
with the grade `grade`. -/
def numbered_student (n : ℕ) (grade : Int) : student :=
  ⟨"Erin", 5, (List.range n).map fun k => ⟨numeral (k + 1), grade⟩⟩

/-- The calls that add the student Erin (id 5) and then `n` grades `grade`
for courses named by the numerals of `1`, ..., `n`. -/
def numbered_calls (n : ℕ) (grade : Int) : List call :=
  .add_student none (some "Erin") 5 ::
    (List.range n).map fun k => .add_grade none (some (numeral (k + 1))) 5 grade

/-- The single-precision running sum after `k` grades of 100: exact up to
`100 * 671088`, the last multiple of 100 below `2^26`; then each step adds 96
while the floats are 8, 16 or 32 apart, up to `2^29 + 64`; then each step
adds 128, the floats being 64 apart. -/
def float_sum_100 (k : ℕ) : ℕ :=
  if k ≤ 671088 then 100 * k
  else if k ≤ 5564444 then 67108800 + 96 * (k - 671088)
  else 536870976 + 128 * (k - 5564444)

/-! ## Allocation tracking

The same helpers once more, with the blocks that `malloc` hands out and
`free` takes back made explicit.  A block is the identity of one allocation:
it is handed out once and never again. -/

/-- The state of the allocator: the failure plan, the number of blocks
handed out so far (the blocks handed out are exactly those below `next`),
and the blocks passed to `free`, in call order. -/
structure Mem where
  plan : Alloc
  next : ℕ
  freed : List ℕ
deriving DecidableEq

/-- `malloc`, returning the new block (`none` for `NULL`). -/
def malloc_block (m : Mem) : Option ℕ × Mem :=
  match malloc m.plan with
  | (true, p) => (some m.next, ⟨p, m.next + 1, m.freed⟩)
  | (false, p) => (none, ⟨p, m.next, m.freed⟩)

/-- `free`. -/
def free_block (b : ℕ) (m : Mem) : Mem := ⟨m.plan, m.next, m.freed ++ [b]⟩

/-- `string_duplicate`, returning the block of the copy. -/
def string_duplicate_mem (m : Mem) (_str : String) : Option ℕ × Mem := malloc_block m

/-- A `struct course` in memory: the block of the record, the block of its
name, and the contents. -/
structure course_obj where
  block : ℕ
  name_block : ℕ
  name : String
  grade : Int
deriving DecidableEq

/-- A `struct list` in memory: the block that stands for the container's own
storage, and the elements it owns, in order. -/
structure list_obj (α : Type) where
  block : ℕ
  elems : List α
deriving DecidableEq

/-- A `struct student` in memory: the block of the record, the block of its
name, the contents and its course container. -/
structure student_obj where
  block : ℕ
  name_block : ℕ
  name : String
  id : Int
  courses : list_obj course_obj
deriving DecidableEq

/-- A `struct grades` in memory: the block of the record and its student
container. -/
structure grades_obj where
  block : ℕ
  students : list_obj student_obj
deriving DecidableEq

/-- The course that a `course_obj` holds. -/
def course_obj.val (c : course_obj) : course := ⟨c.name, c.grade⟩

/-- The student that a `student_obj` holds. -/
def student_obj.val (s : student_obj) : student :=
  ⟨s.name, s.id, s.courses.elems.map course_obj.val⟩

/-- Modelled from the spec: `list_init` of `linked-list.h`, with its block.
"initialize(copy_fn, destroy_fn) → new empty container". -/
def list_init_mem {α : Type} (m : Mem) : Option (list_obj α) × Mem :=
  match malloc_block m with
  | (some b, m1) => (some ⟨b, []⟩, m1)
  | (none, m1) => (none, m1)

/-- Modelled from the spec: `list_push_back` of `linked-list.h`, with the
blocks of the clone.  "uses copy_fn to clone the given element and appends
the clone at the end, preserving existing order; on clone failure the
container is left unchanged and the operation fails." -/
def list_push_back_mem {α : Type} (copy_fn : Mem → α → Option α × Mem)
    (m : Mem) (l : list_obj α) (element : α) : Int × list_obj α × Mem :=
  match copy_fn m element with
  | (some clone, m1) => (0, ⟨l.block, l.elems ++ [clone]⟩, m1)
  | (none, m1) => (1, l, m1)

/-- Modelled from the spec: `list_destroy` of `linked-list.h`.
"destroy(container) → invokes destroy_fn on every stored element then
releases the container itself.  Idempotent against a null container
(no-op)." -/
def list_destroy {α : Type} (destroy_fn : Option α → Mem → Mem)
    (l : Option (list_obj α)) (m : Mem) : Mem :=
  match l with
  | none => m
  | some l => free_block l.block (l.elems.foldl (fun m1 e => destroy_fn (some e) m1) m)

/-- `clone_course`, with its blocks: the record, then the name; the record
is freed when the name cannot be duplicated. -/
def clone_course_mem (m : Mem) (orig : course_obj) : Option course_obj × Mem :=
  match malloc_block m with
  | (none, m1) => (none, m1)
  | (some clone, m1) =>
    match string_duplicate_mem m1 orig.name with
    | (none, m2) => (none, free_block clone m2)
    | (some nm, m2) => (some ⟨clone, nm, orig.name, orig.grade⟩, m2)

/-- `destroy_course`: nothing for `NULL`; else the name, then the record. -/
def destroy_course (element : Option course_obj) (m : Mem) : Mem :=
  match element with
  | none => m
  | some course => free_block course.block (free_block course.name_block m)

/-- The loop of `clone_student` over the courses of the original, with the
`list_destroy(clone->courses)` of its failure branch. -/
def clone_courses_mem (m : Mem) (acc : list_obj course_obj) :
    List course_obj → Option (list_obj course_obj) × Mem
  | [] => (some acc, m)
  | c :: t =>
    match list_push_back_mem clone_course_mem m acc c with
    | (r, acc1, m1) =>
      if r ≠ 0 then (none, list_destroy destroy_course (some acc1) m1)
      else clone_courses_mem m1 acc1 t

/-- `clone_student`, with its blocks: the record, the name, the course
container, then the clones of the courses; what was allocated is freed on
every failure path. -/
def clone_student_mem (m : Mem) (orig : student_obj) : Option student_obj × Mem :=
  match malloc_block m with
  | (none, m1) => (none, m1)
  | (some clone, m1) =>
    match string_duplicate_mem m1 orig.name with
    | (none, m2) => (none, free_block clone m2)
    | (some nm, m2) =>
      match list_init_mem m2 with
      | (none, m3) => (none, free_block clone (free_block nm m3))
      | (some cs, m3) =>
        match clone_courses_mem m3 cs orig.courses.elems with
        | (none, m4) => (none, free_block clone (free_block nm m4))
        | (some cs1, m4) => (some ⟨clone, nm, orig.name, orig.id, cs1⟩, m4)

/-- `destroy_student`: nothing for `NULL`; else the name, the course
container with its courses, then the record. -/
def destroy_student (element : Option student_obj) (m : Mem) : Mem :=
  match element with
  | none => m
  | some student =>
    free_block student.block
      (list_destroy destroy_course (some student.courses) (free_block student.name_block m))

/-- `grades_destroy`: nothing for `NULL`; else the student container with
its students, then the record. -/
def grades_destroy (grades : Option grades_obj) (m : Mem) : Mem :=
  match grades with
  | none => m
  | some g => free_block g.block (list_destroy destroy_student (some g.students) m)

/-- The allocations that a course owns: its record and its name. -/
def course_blocks (c : course_obj) : List ℕ := [c.block, c.name_block]

/-- The allocations that a student owns: its record, its name, its course
container, and those of every course. -/
def student_blocks (s : student_obj) : List ℕ :=
  s.block :: s.name_block :: s.courses.block :: s.courses.elems.flatMap course_blocks

/-- The allocations that a store owns: its record, its student container,
and those of every student. -/
def grades_blocks (g : grades_obj) : List ℕ :=
  g.block :: g.students.block :: g.students.elems.flatMap student_blocks

/-- The clones of a list of courses when the allocator hands out the blocks
from `n` on: two blocks each, the record and then the name. -/
def fresh_courses (n : ℕ) : List course_obj → List course_obj
  | [] => []
  | c :: t => ⟨n, n + 1, c.name, c.grade⟩ :: fresh_courses (n + 2) t

/-- Alice in memory: blocks 0 to 6. -/
def alice_obj : student_obj :=
  ⟨0, 1, "Alice", 1, ⟨2, [⟨3, 4, "Math", 90⟩, ⟨5, 6, "Physics", 85⟩]⟩⟩

/-- A store in memory that holds Alice and Bob: blocks 0 to 11. -/
def store_obj : grades_obj :=
  ⟨7, ⟨8, [alice_obj, ⟨9, 10, "Bob", 2, ⟨11, []⟩⟩]⟩⟩

/-- The clone of Alice that `clone_student` makes when blocks 0 to 6 are
in use: blocks 7 to 13. -/
def alice_clone : student_obj :=
  ⟨7, 8, "Alice", 1, ⟨9, [⟨10, 11, "Math", 90⟩, ⟨12, 13, "Physics", 85⟩]⟩⟩

/-! ## Basic facts -/

theorem malloc_none : malloc none = (true, none) := rfl

theorem string_duplicate_none (s : String) : string_duplicate none s = (some s, none) := rfl

theorem string_duplicate_some {h h1 : Alloc} {s r : String}
    (hs : string_duplicate h s = (some r, h1)) : r = s := by
  unfold string_duplicate at hs
  split at hs <;> simp_all

theorem clone_course_none (c : course) : clone_course none c = (some c, none) := rfl

theorem clone_course_some {h h1 : Alloc} {c r : course}
    (hc : clone_course h c = (some r, h1)) : r = c := by
  unfold clone_course at hc
  split at hc
  · simp at hc
  · split at hc
    · simp at hc
    · next heq =>
      have := string_duplicate_some heq
      simp at hc
      rw [← hc.1, this]

theorem clone_courses_none (acc l : List course) :
    clone_courses none acc l = (some (acc ++ l), none) := by
  induction l generalizing acc with
  | nil => simp [clone_courses]
  | cons c t ih => simp [clone_courses, list_push_back, clone_course_none, ih]

theorem clone_courses_some {h h1 : Alloc} {acc l r : List course}
    (hc : clone_courses h acc l = (some r, h1)) : r = acc ++ l := by
  induction l generalizing acc h with
  | nil => simp [clone_courses] at hc; simp [hc.1]
  | cons c t ih =>
    rcases hcl : clone_course h c with ⟨_ | clone, h2⟩
    · simp [clone_courses, list_push_back, hcl] at hc
    · simp [clone_courses, list_push_back, hcl] at hc
      rw [ih hc, clone_course_some hcl]
      simp

theorem clone_student_none (s : student) : clone_student none s = (some s, none) := by
  simp [clone_student, malloc_none, string_duplicate_none, list_init, clone_courses_none]

theorem clone_student_some {h h1 : Alloc} {s r : student}
    (hc : clone_student h s = (some r, h1)) : r = s := by
  unfold clone_student at hc
  split at hc
  · simp at hc
  · split at hc
    · simp at hc
    · next hsd =>
      have hnm := string_duplicate_some hsd
      split at hc
      · simp at hc
      · next cs h3 hli =>
        have hcs : cs = [] := by
          unfold list_init at hli
          split at hli <;> simp_all
        split at hc
        · simp at hc
        · next hcc =>
          have := clone_courses_some hcc
          simp at hc
          rw [← hc.1, this, hnm, hcs]
          rfl

theorem find_student_by_id_eq_none {l : List student} {id : Int} :
    find_student_by_id l id = none ↔ ∀ s ∈ l, s.id ≠ id := by
  induction l with
  | nil => simp [find_student_by_id]
  | cons a t ih =>
    by_cases ha : a.id = id
    · simp [find_student_by_id, ha]
    · simp [find_student_by_id, ha, ih]

theorem find_student_by_id_isSome {l : List student} {id : Int} :
    (find_student_by_id l id).isSome ↔ ∃ s ∈ l, s.id = id := by
  rw [← Option.ne_none_iff_isSome, Ne, find_student_by_id_eq_none]
  push_neg
  rfl

/-- The student that `find_student_by_id` returns is the first one with the
id: it splits the list into the students before it, none of which has the
id, itself, and the students after it. -/
theorem find_student_by_id_some {l : List student} {id : Int} {i : Fin l.length}
    (h : find_student_by_id l id = some i) :
    (l.get i).id = id ∧ (∀ t ∈ l.take i, t.id ≠ id) ∧
      ∀ s : student, l.set i s = l.take i ++ s :: l.drop (i + 1) := by
  induction l with
  | nil => exact absurd i.2 (by simp)
  | cons a t ih =>
    by_cases ha : a.id = id
    · simp [find_student_by_id, ha] at h
      subst h
      simp [ha]
    · simp [find_student_by_id, ha] at h
      obtain ⟨j, hj, rfl⟩ := h
      obtain ⟨h1, h2, h3⟩ := ih hj
      refine ⟨by simpa using h1, ?_, ?_⟩
      · intro s hs
        simp at hs
        rcases hs with rfl | hs
        · exact ha
        · exact h2 s hs
      · intro s
        simp [h3 s]

/-- In a store with distinct ids the lookup of a stored student's id
returns that student. -/
theorem find_student_by_id_of_mem {l : List student} (hd : (l.map student.id).Nodup)
    {s : student} (hs : s ∈ l) :
    ∃ i, find_student_by_id l s.id = some i ∧ l.get i = s := by
  cases hf : find_student_by_id l s.id with
  | none => exact absurd rfl (find_student_by_id_eq_none.1 hf s hs)
  | some i =>
    refine ⟨i, rfl, ?_⟩
    have h1 := (find_student_by_id_some hf).1
    exact List.inj_on_of_nodup_map hd (List.get_mem l i.1 i.2) hs h1

theorem has_course_eq_true {l : List course} {name : String} :
    has_course l name = true ↔ ∃ c ∈ l, c.name = name := by
  induction l with
  | nil => simp [has_course]
  | cons a t ih =>
    by_cases ha : a.name = name
    · simp [has_course, ha]
    · simp [has_course, ha, ih]

theorem has_course_eq_false {l : List course} {name : String} :
    has_course l name = false ↔ ∀ c ∈ l, c.name ≠ name := by
  rw [← Bool.not_eq_true, has_course_eq_true]
  push_neg
  rfl

/-! ## The two mutating operations, case by case -/

/-- Every call of `grades_add_student` on a non-null store either returns 1
and leaves the store as it was, or returns 0 having appended the new
student; the second case needs a present name and an id that is not stored. -/
theorem grades_add_student_cases (h : Alloc) (g : grades) (name : Option String) (id : Int) :
    grades_add_student h (some g) name id = (1, some g) ∨
      ∃ nm, name = some nm ∧ (∀ s ∈ g.students, s.id ≠ id) ∧
        grades_add_student h (some g) name id
          = (0, some ⟨g.students ++ [⟨nm, id, []⟩]⟩) := by
  cases name with
  | none => exact Or.inl rfl
  | some nm =>
    cases hf : find_student_by_id g.students id with
    | some i => simp [grades_add_student, hf]
    | none =>
      have hno := find_student_by_id_eq_none.1 hf
      simp only [grades_add_student, hf, Option.isSome_none, Bool.false_eq_true, if_false]
      rcases hm : malloc h with ⟨_ | _, hA⟩
      · simp
      · rcases hsd : string_duplicate hA nm with ⟨_ | nm1, hB⟩
        · simp [hsd]
        · have hnm := string_duplicate_some hsd
          subst hnm
          rcases hli : (list_init hB : Option (List course) × Alloc) with ⟨_ | cs, hC⟩
          · simp [hsd, hli]
          · have hcs : cs = [] := by
              unfold list_init at hli
              split at hli <;> simp_all
            subst hcs
            rcases hcl : clone_student hC ⟨nm1, id, []⟩ with ⟨_ | cl, hD⟩
            · simp [hsd, hli, list_push_back, hcl]
            · have := clone_student_some hcl
              subst this
              right
              exact ⟨nm1, rfl, hno, by simp [hsd, hli, list_push_back, hcl]⟩

/-- Every call of `grades_add_grade` on a non-null store either returns 1 and
leaves the store as it was, or returns 0 having appended the new course to
the first student with the id; the second case needs a present name, a grade
in [0,100] and no course of that name with that student. -/
theorem grades_add_grade_cases (h : Alloc) (g : grades) (name : Option String)
    (id grade : Int) :
    grades_add_grade h (some g) name id grade = (1, some g) ∨
      ∃ (pre post : List student) (s : student) (nm : String),
        g.students = pre ++ s :: post ∧ name = some nm ∧ s.id = id ∧
        (∀ t ∈ pre, t.id ≠ id) ∧ (∀ c ∈ s.courses, c.name ≠ nm) ∧
        0 ≤ grade ∧ grade ≤ 100 ∧
        grades_add_grade h (some g) name id grade
          = (0, some ⟨pre ++ ⟨s.name, s.id, s.courses ++ [⟨nm, grade⟩]⟩ :: post⟩) := by
  cases name with
  | none => exact Or.inl rfl
  | some nm =>
    by_cases hr : grade < 0 ∨ grade > 100
    · simp [grades_add_grade, hr]
    · cases hf : find_student_by_id g.students id with
      | none => simp [grades_add_grade, hr, hf]
      | some i =>
        obtain ⟨h1, h2, h3⟩ := find_student_by_id_some hf
        have hsplit : g.students = g.students.take i ++ g.students.get i :: g.students.drop (i + 1) := by
          simp only [List.get_eq_getElem]
          rw [List.getElem_cons_drop, List.take_append_drop]
        cases hh : has_course (g.students.get i).courses nm with
        | true => simp [grades_add_grade, hr, hf, hh, ← List.get_eq_getElem]
        | false =>
          simp only [grades_add_grade, hr, hf, hh, if_false, Bool.false_eq_true]
          rcases hm : malloc h with ⟨_ | _, hA⟩
          · simp
          · rcases hsd : string_duplicate hA nm with ⟨_ | nm1, hB⟩
            · simp [hsd]
            · have hnm := string_duplicate_some hsd
              subst hnm
              rcases hcl : clone_course hB ⟨nm1, grade⟩ with ⟨_ | cl, hC⟩
              · left
                simp only [hsd, list_push_back, hcl]
                have : g.students.set i (g.students.get i) = g.students := by
                  rw [h3]
                  exact hsplit.symm
                have hg : grades.mk (g.students.set i (g.students.get i)) = g := by
                  rw [this]
                simpa using hg
              · have hcl2 := clone_course_some hcl
                subst hcl2
                right
                refine ⟨g.students.take i, g.students.drop (i + 1), g.students.get i, nm1,
                  hsplit, rfl, h1, h2, has_course_eq_false.1 hh, by omega, by omega, ?_⟩
                simp only [hsd, list_push_back, hcl]
                simp [h3]

/-! ## Facts of single-precision rounding -/

theorem round_half_even_intCast (n : ℤ) : round_half_even (n : ℚ) = n := by
  simp [round_half_even]

/-- A dyadic number whose exponent is not below the exponent of the unit in
the last place is a binary32 value: rounding leaves it as it is. -/
theorem f32_round_dyadic (m k : ℤ) (hk : f32_ulp_exp (m * 2 ^ k) ≤ k) :
    f32_round (m * 2 ^ k) = m * 2 ^ k := by
  unfold f32_round
  generalize f32_ulp_exp (m * 2 ^ k) = e at hk
  obtain ⟨n, rfl⟩ : ∃ n : ℕ, k = e + n := ⟨(k - e).toNat, by omega⟩
  have h2 : (2 : ℚ) ≠ 0 := by norm_num
  have h1 : (m : ℚ) * 2 ^ (e + (n : ℤ)) / 2 ^ e = ((m * 2 ^ n : ℤ) : ℚ) := by
    rw [zpow_add₀ h2, zpow_natCast]
    field_simp
    ring
  rw [h1, round_half_even_intCast, zpow_add₀ h2, zpow_natCast]
  push_cast
  ring

theorem f32_ulp_exp_le (q : ℚ) (k : ℤ) (h0 : q ≠ 0) (hk : -149 ≤ k)
    (hq : |q| < 2 ^ (k + 24)) : f32_ulp_exp q ≤ k := by
  unfold f32_ulp_exp
  have : Int.log 2 |q| < k + 24 :=
    (Int.lt_zpow_iff_log_lt (by norm_num) (abs_pos.2 h0)).1 hq
  omega

theorem f32_round_zero : f32_round 0 = 0 := by
  simp [f32_round, round_half_even]

theorem f32_round_intCast (z : ℤ) (hz : |z| ≤ 2 ^ 24) : f32_round z = z := by
  by_cases h0 : z = 0
  · subst h0
    simpa using f32_round_zero
  have h0q : (z : ℚ) ≠ 0 := by exact_mod_cast h0
  have hzq : |(z : ℚ)| ≤ 2 ^ 24 := by exact_mod_cast hz
  rcases lt_or_eq_of_le hz with h | h
  · have hq : |(z : ℚ)| < 2 ^ ((0 : ℤ) + 24) := by
      have : (2 : ℚ) ^ ((0 : ℤ) + 24) = 2 ^ 24 := by norm_num
      rw [this]
      exact_mod_cast h
    have := f32_round_dyadic z 0
      (by simpa using f32_ulp_exp_le z 0 h0q (by norm_num) hq)
    simpa using this
  · obtain ⟨m, rfl⟩ : ∃ m : ℤ, z = m * 2 := by
      rcases abs_eq (by norm_num : (0 : ℤ) ≤ 2 ^ 24) |>.1 h with rfl | rfl
      · exact ⟨2 ^ 23, by norm_num⟩
      · exact ⟨-2 ^ 23, by norm_num⟩
    have hq : |((m * 2 : ℤ) : ℚ)| < 2 ^ ((1 : ℤ) + 24) := by
      have : (2 : ℚ) ^ ((1 : ℤ) + 24) = 2 ^ 25 := by norm_num
      rw [this]
      exact lt_of_le_of_lt hzq (by norm_num)
    have := f32_round_dyadic m 1
      (by simpa using f32_ulp_exp_le _ 1 h0q (by norm_num) hq)
    simpa using this

theorem f32_round_natCast (n : ℕ) (hn : n ≤ 2 ^ 24) : f32_round n = n := by
  have := f32_round_intCast (n : ℤ) (by rw [abs_of_nonneg (by positivity)]; exact_mod_cast hn)
  simpa using this


/-- Rounding with a known binade: when `2^(e+23) ≤ |q| < 2^(e+24)` the unit
in the last place is `2^e`. -/
theorem f32_round_eq (q : ℚ) (e n : ℤ) (he : -149 ≤ e) (hlo : 2 ^ (e + 23) ≤ |q|)
    (hhi : |q| < 2 ^ (e + 24)) (hn : round_half_even (q / 2 ^ e) = n) :
    f32_round q = n * 2 ^ e := by
  have hpos : (0 : ℚ) < |q| := lt_of_lt_of_le (by positivity) hlo
  have h1 : Int.log 2 |q| < e + 24 := (Int.lt_zpow_iff_log_lt (by norm_num) hpos).1 hhi
  have h2 : e + 23 ≤ Int.log 2 |q| := (Int.zpow_le_iff_le_log (by norm_num) hpos).1 hlo
  have : f32_ulp_exp q = e := by
    unfold f32_ulp_exp
    omega
  unfold f32_round
  rw [this, hn]

/-! ## Adding a student -/

/-- C1. Adding a student whose id is already stored fails with return code 1
and leaves the store as it was: the same students, in the same order, with
the same names, ids and course lists.  This holds for every name (absent or
present) and every allocation plan. -/
theorem add_student_duplicate_id (h : Alloc) (g : grades) (name : Option String) (id : Int)
    (hdup : ∃ s ∈ g.students, s.id = id) :
    grades_add_student h (some g) name id = (1, some g) := by
  have hf := find_student_by_id_isSome.2 hdup
  cases name with
  | none => rfl
  | some nm => simp [grades_add_student, hf]

theorem add_student_duplicate_id_witness :
    (∃ s ∈ (grades.mk [alice, bob]).students, s.id = 2) ∧
      grades_add_student (some 1) (some ⟨[alice, bob]⟩) (some "Carol") 2
        = (1, some ⟨[alice, bob]⟩) := by
  have hdup : ∃ s ∈ (grades.mk [alice, bob]).students, s.id = 2 := by decide
  exact ⟨hdup, add_student_duplicate_id (some 1) ⟨[alice, bob]⟩ (some "Carol") 2 hdup⟩

/-- C2. On a non-null store and with no allocation failure,
`grades_add_student` returns 0 exactly when the name is present and no stored
student has the id; and when it returns 0 the students afterwards are the
old students, unchanged and in order, followed by one new student with the
given name, the given id and no course. -/
theorem add_student_success_iff (g : grades) (name : Option String) (id : Int) :
    ((grades_add_student none (some g) name id).1 = 0 ↔
        name.isSome ∧ ∀ s ∈ g.students, s.id ≠ id) ∧
      ((grades_add_student none (some g) name id).1 = 0 →
        ∃ nm, name = some nm ∧
          (grades_add_student none (some g) name id).2
            = some ⟨g.students ++ [⟨nm, id, []⟩]⟩) := by
  cases name with
  | none => simp [grades_add_student]
  | some nm =>
    cases hf : find_student_by_id g.students id with
    | some i =>
      have : ¬ ∀ s ∈ g.students, s.id ≠ id := by
        rw [← find_student_by_id_eq_none, hf]; simp
      simp [grades_add_student, hf, this]
    | none =>
      have := find_student_by_id_eq_none.1 hf
      simp [grades_add_student, hf, malloc_none, string_duplicate_none, list_init,
        list_push_back, clone_student_none]
      exact this

/-! ## Adding a grade -/

/-- C3. A grade below 0 or above 100 makes `grades_add_grade` fail with
return code 1 and leaves the store as it was, whatever the store (null
included), the course name, the student id (known or not) and the
allocation plan. -/
theorem add_grade_out_of_range (h : Alloc) (grades : Option grades) (name : Option String)
    (id grade : Int) (hr : grade < 0 ∨ grade > 100) :
    grades_add_grade h grades name id grade = (1, grades) := by
  cases grades with
  | none => rfl
  | some g =>
    cases name with
    | none => rfl
    | some nm => simp [grades_add_grade, hr]

theorem add_grade_out_of_range_witness :
    ((101 : Int) < 0 ∨ (101 : Int) > 100) ∧
      grades_add_grade none (some ⟨[alice, bob]⟩) (some "Chemistry") 2 101
        = (1, some ⟨[alice, bob]⟩) := by
  have hr : (101 : Int) < 0 ∨ (101 : Int) > 100 := by decide
  exact ⟨hr, add_grade_out_of_range none (some ⟨[alice, bob]⟩) (some "Chemistry") 2 101 hr⟩

/-- C4. In a store whose ids are pairwise distinct (the invariant of the
data model), for every stored student that already has a course with the
given name, `grades_add_grade` called with that student's id fails with
return code 1 for every grade and every allocation plan, and the store is
left as it was; in particular that student's course list keeps its names,
grades, order and length. -/
theorem add_grade_duplicate_course (h : Alloc) (g : grades) (hd : ids_distinct g)
    (s : student) (hs : s ∈ g.students) (name : String) (grade : Int)
    (hc : ∃ c ∈ s.courses, c.name = name) :
    grades_add_grade h (some g) (some name) s.id grade = (1, some g) := by
  obtain ⟨i, hi, hget⟩ := find_student_by_id_of_mem hd hs
  have hh := has_course_eq_true.2 hc
  rw [← hget, List.get_eq_getElem] at hh
  by_cases hr : grade < 0 ∨ grade > 100
  · simp [grades_add_grade, hr]
  · simp [grades_add_grade, hr, hi, hh]

theorem add_grade_duplicate_course_witness :
    ids_distinct ⟨[alice, bob]⟩ ∧ alice ∈ (grades.mk [alice, bob]).students ∧
      (∃ c ∈ alice.courses, c.name = "Physics") ∧
      grades_add_grade none (some ⟨[alice, bob]⟩) (some "Physics") alice.id 70
        = (1, some ⟨[alice, bob]⟩) := by
  have hd : ids_distinct ⟨[alice, bob]⟩ := by decide
  have hs : alice ∈ (grades.mk [alice, bob]).students := by decide
  have hc : ∃ c ∈ alice.courses, c.name = "Physics" := by decide
  exact ⟨hd, hs, hc,
    add_grade_duplicate_course none ⟨[alice, bob]⟩ hd alice hs "Physics" 70 hc⟩

/-- C5. On a non-null store, with a non-null course name and no allocation
failure: when the ids of the store are pairwise distinct (the invariant of
the data model, which makes "the student with the id" unique),
`grades_add_grade` returns 0 exactly when the grade is in [0,100], a student
with the id is stored and that student has no course with the given name;
and in every store, whenever it does not return 0 (unknown id included) it
returns 1 and the store is left as it was. -/
theorem add_grade_success_iff (g : grades) (name : String) (id grade : Int) :
    (ids_distinct g →
        ((grades_add_grade none (some g) (some name) id grade).1 = 0 ↔
          (0 ≤ grade ∧ grade ≤ 100) ∧
            ∃ s ∈ g.students, s.id = id ∧ ∀ c ∈ s.courses, c.name ≠ name)) ∧
      ((grades_add_grade none (some g) (some name) id grade).1 ≠ 0 →
        grades_add_grade none (some g) (some name) id grade = (1, some g)) := by
  by_cases hr : grade < 0 ∨ grade > 100
  · have : ¬ (0 ≤ grade ∧ grade ≤ 100) := by omega
    simp [grades_add_grade, hr, this]
  · have hr2 : 0 ≤ grade ∧ grade ≤ 100 := by omega
    cases hf : find_student_by_id g.students id with
    | none =>
      have hn := find_student_by_id_eq_none.1 hf
      have : ¬ ∃ s ∈ g.students, s.id = id ∧ ∀ c ∈ s.courses, c.name ≠ name := by
        rintro ⟨s, hs, hid, -⟩
        exact hn s hs hid
      simp only [grades_add_grade, hr, hf]
      simp [this]
    | some i =>
      have hfi := (find_student_by_id_some hf).1
      cases hh : has_course (g.students.get i).courses name with
      | true =>
        have : ids_distinct g →
            ¬ ∃ s ∈ g.students, s.id = id ∧ ∀ c ∈ s.courses, c.name ≠ name := by
          rintro hd ⟨s, hs, hid, hc⟩
          obtain ⟨j, hj, hget⟩ := find_student_by_id_of_mem hd hs
          rw [hid, hf] at hj
          cases hj
          rw [hget] at hh
          obtain ⟨c, hc1, hc2⟩ := has_course_eq_true.1 hh
          exact hc c hc1 hc2
        have hres : grades_add_grade none (some g) (some name) id grade = (1, some g) := by
          simp [grades_add_grade, hr, hf, hh, ← List.get_eq_getElem]
        rw [hres]
        exact ⟨fun hd => ⟨fun h => absurd h (by norm_num), fun h => absurd h.2 (this hd)⟩,
          fun _ => rfl⟩
      | false =>
        have : ∃ s ∈ g.students, s.id = id ∧ ∀ c ∈ s.courses, c.name ≠ name :=
          ⟨g.students.get i, List.get_mem _ _ _, hfi, has_course_eq_false.1 hh⟩
        simp only [grades_add_grade, hr, hf, hh, malloc_none, string_duplicate_none,
          list_push_back, clone_course_none]
        simp [this, hr2]

theorem add_grade_success_iff_witness :
    ids_distinct ⟨[alice, bob]⟩ ∧
      (grades_add_grade none (some ⟨[alice, bob]⟩) (some "Math") 2 90).1 = 0 ∧
      grades_add_grade none (some ⟨[alice, bob]⟩) (some "Math") 3 90
        = (1, some ⟨[alice, bob]⟩) := by
  have hd : ids_distinct ⟨[alice, bob]⟩ := by decide
  have h1 : (grades_add_grade none (some ⟨[alice, bob]⟩) (some "Math") 2 90).1 = 0 := by decide
  have h2 : (grades_add_grade none (some ⟨[alice, bob]⟩) (some "Math") 3 90).1 ≠ 0 := by decide
  exact ⟨hd, h1, (add_grade_success_iff ⟨[alice, bob]⟩ "Math" 3 90).2 h2⟩

/-- C6. Whenever `grades_add_grade` returns 0 (under any allocation plan),
the store was non-null, the name was present, and the students afterwards
are the students before with one change: the student with the id (the first
one in list order, `s` below) has the course list it had, unchanged and in
order, followed by the new course (name, grade).  Its name and id, the
number and order of the students and every other student are as before. -/
theorem add_grade_success_effect (h : Alloc) (grades : Option grades) (name : Option String)
    (id grade : Int) (after : Option Grades.grades)
    (hok : grades_add_grade h grades name id grade = (0, after)) :
    ∃ (pre post : List student) (s : student) (nm : String),
      grades = some ⟨pre ++ s :: post⟩ ∧ name = some nm ∧
      s.id = id ∧ (∀ t ∈ pre, t.id ≠ id) ∧
      after = some ⟨pre ++ ⟨s.name, s.id, s.courses ++ [⟨nm, grade⟩]⟩ :: post⟩ := by
  cases grades with
  | none => simp [grades_add_grade] at hok
  | some g =>
    rcases grades_add_grade_cases h g name id grade with hfail | hsucc
    · rw [hfail] at hok
      simp at hok
    · obtain ⟨pre, post, s, nm, h1, h2, h3, h4, -, -, -, h5⟩ := hsucc
      rw [h5] at hok
      have h6 : g = ⟨pre ++ s :: post⟩ := by
        cases g
        simp only at h1
        rw [h1]
      exact ⟨pre, post, s, nm, by rw [h6], h2, h3, h4, by simpa using hok.symm⟩

theorem add_grade_success_effect_witness :
    ∃ (pre post : List student) (s : student) (nm : String),
      some (grades.mk [alice, bob]) = some ⟨pre ++ s :: post⟩ ∧ some "Math" = some nm ∧
      s.id = 2 ∧ (∀ t ∈ pre, t.id ≠ 2) ∧
      some (grades.mk [alice, ⟨"Bob", 2, [⟨"Math", 90⟩]⟩])
        = some ⟨pre ++ ⟨s.name, s.id, s.courses ++ [⟨nm, 90⟩]⟩ :: post⟩ := by
  have hok : grades_add_grade none (some ⟨[alice, bob]⟩) (some "Math") 2 90
      = (0, some ⟨[alice, ⟨"Bob", 2, [⟨"Math", 90⟩]⟩]⟩) := by decide
  exact add_grade_success_effect none (some ⟨[alice, bob]⟩) (some "Math") 2 90
    (some ⟨[alice, ⟨"Bob", 2, [⟨"Math", 90⟩]⟩]⟩) hok

/-! ## The average -/

/-- While the running sum stays within `2^24` the single-precision loop of
`grades_calc_avg` adds the grades exactly. -/
theorem sum_grades_exact (l : List course) (S : ℤ) (hS : 0 ≤ S)
    (hg : ∀ c ∈ l, 0 ≤ c.grade ∧ c.grade ≤ 100) (hb : S + 100 * l.length ≤ 2 ^ 24) :
    sum_grades (S : ℚ) l = ((S + (l.map course.grade).sum : ℤ) : ℚ) := by
  induction l generalizing S with
  | nil => simp [sum_grades]
  | cons c t ih =>
    have hc := hg c (List.mem_cons_self _ _)
    have hlen : ((c :: t).length : ℤ) = t.length + 1 := by simp
    rw [hlen] at hb
    have h1 : f32_round (c.grade : ℚ) = c.grade :=
      f32_round_intCast _ (by rw [abs_of_nonneg hc.1]; omega)
    have h2 : f32_round ((S + c.grade : ℤ) : ℚ) = ((S + c.grade : ℤ) : ℚ) :=
      f32_round_intCast _ (by rw [abs_of_nonneg (by omega)]; omega)
    have h3 := ih (S + c.grade) (by omega) (fun d hd => hg d (List.mem_cons_of_mem _ hd))
      (by omega)
    simp only [sum_grades, h1]
    rw [← Int.cast_add, h2, h3]
    simp [add_assoc]

/-- A running sum of grades that are all 1 grows by one per course until it
reaches `2^24`, where the next float is two away, and stays there. -/
theorem sum_grades_ones (l : List course) (hl : ∀ c ∈ l, c.grade = 1) (S : ℕ)
    (hS : S ≤ 2 ^ 24) : sum_grades (S : ℚ) l = (min (S + l.length) (2 ^ 24) : ℕ) := by
  induction l generalizing S with
  | nil => simpa [sum_grades] using hS
  | cons c t ih =>
    have hc : c.grade = 1 := hl c (List.mem_cons_self _ _)
    have h1 : f32_round ((1 : ℤ) : ℚ) = ((1 : ℤ) : ℚ) := f32_round_intCast 1 (by norm_num)
    simp only [sum_grades, hc, h1]
    rcases Nat.lt_or_ge S (2 ^ 24) with hlt | hge
    · have h2 : f32_round ((S + 1 : ℕ) : ℚ) = ((S + 1 : ℕ) : ℚ) :=
        f32_round_natCast _ (by omega)
      have h3 := ih (fun d hd => hl d (List.mem_cons_of_mem _ hd)) (S + 1) (by omega)
      have h4 : (S : ℚ) + ((1 : ℤ) : ℚ) = ((S + 1 : ℕ) : ℚ) := by push_cast; ring
      rw [h4, h2, h3]
      congr 1
      simp only [List.length_cons]
      omega
    · have hS2 : S = 2 ^ 24 := le_antisymm hS hge
      subst hS2
      have h2 : f32_round (((2 ^ 24 : ℕ) : ℚ) + ((1 : ℤ) : ℚ)) = ((2 ^ 24 : ℕ) : ℚ) := by
        have := f32_round_eq 16777217 1 8388608 (by norm_num) (by norm_num [abs_of_pos])
          (by norm_num [abs_of_pos]) (by decide!)
        norm_num at this ⊢
        exact this
      have h3 := ih (fun d hd => hl d (List.mem_cons_of_mem _ hd)) (2 ^ 24) le_rfl
      rw [h2, h3]
      congr 1
      simp only [List.length_cons]
      omega

theorem ones_student_length (n : ℕ) : (ones_student n).courses.length = n := by
  simp [ones_student]

theorem ones_student_grade (n : ℕ) : ∀ c ∈ (ones_student n).courses, c.grade = 1 := by
  intro c hc
  simp only [ones_student, List.mem_map] at hc
  obtain ⟨k, -, rfl⟩ := hc
  rfl

theorem ones_student_sum (n : ℕ) : ((ones_student n).courses.map course.grade).sum = n := by
  have : (ones_student n).courses.map course.grade = List.replicate n 1 := by
    rw [List.eq_replicate_iff]
    refine ⟨by simp [ones_student], ?_⟩
    intro b hb
    obtain ⟨c, hc, rfl⟩ := List.mem_map.1 hb
    exact ones_student_grade n c hc
  rw [this, List.sum_replicate]
  simp

/-- C7 (as amended). In a store whose ids are pairwise distinct, for every
stored student with at least one and at most 167772 courses whose grades lie
in [0,100], `grades_calc_avg` called with that student's id, a non-null
output pointer and no allocation failure writes the student's name and
returns the single-precision value nearest to the arithmetic mean of the
grades (sum divided by number of courses).  In particular grades 90, 80 and
100 give exactly 90 and the name. -/
theorem calc_avg_mean (g : grades) (hd : ids_distinct g) (s : student)
    (hs : s ∈ g.students) (hne : s.courses ≠ [])
    (hg : ∀ c ∈ s.courses, 0 ≤ c.grade ∧ c.grade ≤ 100)
    (hlen : s.courses.length ≤ 167772) (v : Option String) :
    grades_calc_avg none (some g) s.id (some v)
        = (f32_round (mean s.courses), some (some s.name)) ∧
      (s.courses.map course.grade = [90, 80, 100] →
        grades_calc_avg none (some g) s.id (some v) = (90, some (some s.name))) := by
  obtain ⟨i, hi, hget⟩ := find_student_by_id_of_mem hd hs
  have hlen0 : s.courses.length ≠ 0 := by simpa using hne
  have hsum := sum_grades_exact s.courses 0 le_rfl hg (by push_cast; omega)
  have hcnt : f32_round ((s.courses.length : ℕ) : ℚ) = s.courses.length :=
    f32_round_natCast _ (by omega)
  have key : grades_calc_avg none (some g) s.id (some v)
      = (f32_round (mean s.courses), some (some s.name)) := by
    simp only [grades_calc_avg, hi, hget, hlen0, if_false, string_duplicate_none]
    rw [hcnt]
    have : sum_grades 0 s.courses = (((s.courses.map course.grade).sum : ℤ) : ℚ) := by
      simpa using hsum
    rw [this, mean]
  refine ⟨key, fun h3 => ?_⟩
  have hl3 : s.courses.length = 3 := by
    have := congrArg List.length h3
    simpa using this
  have hm : mean s.courses = ((90 : ℤ) : ℚ) := by
    rw [mean, h3, hl3]
    norm_num
  rw [key, hm, f32_round_intCast 90 (by norm_num)]
  norm_num

theorem calc_avg_mean_witness :
    grades_calc_avg none (some ⟨[alice, bob, carol]⟩) carol.id (some none)
        = (f32_round (mean carol.courses), some (some "Carol")) ∧
      grades_calc_avg none (some ⟨[alice, bob, carol]⟩) carol.id (some none)
        = (90, some (some "Carol")) := by
  have hd : ids_distinct ⟨[alice, bob, carol]⟩ := by decide
  have hs : carol ∈ (grades.mk [alice, bob, carol]).students := by decide
  have hne : carol.courses ≠ [] := by decide
  have hg : ∀ c ∈ carol.courses, 0 ≤ c.grade ∧ c.grade ≤ 100 := by decide
  have hlen : carol.courses.length ≤ 167772 := by decide
  have h := calc_avg_mean ⟨[alice, bob, carol]⟩ hd carol hs hne hg hlen none
  exact ⟨h.1, h.2 rfl⟩

/-- C7, the claim as stated fails.  A student with 16777218 courses, each
with grade 1, has the arithmetic mean 1, which is a single-precision value;
the running `float` sum stops at `2^24 = 16777216`, and `grades_calc_avg`
returns `16777216 / 16777218` rounded, `8388607 / 8388608`, not 1. -/
theorem calc_avg_mean_counterexample :
    ones_student 16777218 ∈ (grades.mk [alice, bob, ones_student 16777218]).students ∧
      (ones_student 16777218).courses ≠ [] ∧
      (∀ c ∈ (ones_student 16777218).courses, 0 ≤ c.grade ∧ c.grade ≤ 100) ∧
      mean (ones_student 16777218).courses = 1 ∧
      f32_round (mean (ones_student 16777218).courses) = 1 ∧
      grades_calc_avg none (some ⟨[alice, bob, ones_student 16777218]⟩)
          (ones_student 16777218).id (some none)
        = (8388607 / 8388608, some (some (ones_student 16777218).name)) ∧
      (grades_calc_avg none (some ⟨[alice, bob, ones_student 16777218]⟩)
          (ones_student 16777218).id (some none)).1
        ≠ mean (ones_student 16777218).courses := by
  have hlen : (ones_student 16777218).courses.length = 16777218 :=
    ones_student_length _
  have hone : ∀ c ∈ (ones_student 16777218).courses, c.grade = 1 :=
    ones_student_grade _
  have hmean : mean (ones_student 16777218).courses = 1 := by
    rw [mean, ones_student_sum, hlen]
    norm_num
  have hres : grades_calc_avg none (some ⟨[alice, bob, ones_student 16777218]⟩)
      (ones_student 16777218).id (some none)
        = (8388607 / 8388608, some (some (ones_student 16777218).name)) := by
    have hfind : find_student_by_id [alice, bob, ones_student 16777218] (ones_student 16777218).id
        = some ⟨2, by simp⟩ := by
      simp [find_student_by_id, alice, bob, ones_student]
    have hsum := sum_grades_ones _ hone 0 (by norm_num)
    rw [hlen] at hsum
    have hsum2 : sum_grades 0 (ones_student 16777218).courses = 16777216 := by
      have : min (0 + 16777218) (2 ^ 24) = 16777216 := by norm_num
      rw [this] at hsum
      simpa using hsum
    have hcnt : f32_round ((16777218 : ℕ) : ℚ) = 16777218 := by
      have := f32_round_dyadic 8388609 1
        (f32_ulp_exp_le _ 1 (by norm_num) (by norm_num) (by norm_num [abs_of_pos]))
      norm_num at this ⊢
      exact this
    have hdiv : f32_round (16777216 / 16777218) = 8388607 / 8388608 := by
      have := f32_round_eq (16777216 / 16777218) (-24) 16777214 (by norm_num)
        (by norm_num [abs_of_pos]) (by norm_num [abs_of_pos]) (by decide!)
      rw [this]
      norm_num
    simp only [grades_calc_avg, hfind]
    have hget : [alice, bob, ones_student 16777218].get ⟨2, by simp⟩
        = ones_student 16777218 := rfl
    simp only [hget, hlen, string_duplicate_none, hsum2, hcnt, hdiv]
    simp
  refine ⟨by simp, ?_, ?_, hmean, ?_, hres, ?_⟩
  · intro h
    rw [h] at hlen
    simp at hlen
  · intro c hc
    rw [hone c hc]
    norm_num
  · rw [hmean]
    simpa using f32_round_intCast 1 (by norm_num)
  · rw [hres, hmean]
    norm_num

/-- C8. With a non-null output pointer and no allocation failure: in a store
with pairwise distinct ids (the invariant of the data model), for a stored
student without courses `grades_calc_avg` writes the student's name and
returns 0; in every store, for an id that no stored student has it writes
`NULL` and returns -1 (under any allocation plan); and in every store the
name written is `NULL` exactly when no stored student has the id, so the two
cases are told apart by the name. -/
theorem calc_avg_no_courses_or_unknown (g : grades) (id : Int) (v : Option String) :
    (ids_distinct g → ∀ s ∈ g.students, s.id = id → s.courses = [] →
        grades_calc_avg none (some g) id (some v) = (0, some (some s.name))) ∧
      ((∀ s ∈ g.students, s.id ≠ id) →
        ∀ h, grades_calc_avg h (some g) id (some v) = (-1, some none)) ∧
      ((grades_calc_avg none (some g) id (some v)).2 = some none ↔
        ∀ s ∈ g.students, s.id ≠ id) := by
  refine ⟨?_, ?_, ?_⟩
  · intro hd s hs hid hc
    obtain ⟨i, hi, hget⟩ := find_student_by_id_of_mem hd hs
    rw [hid] at hi
    rw [List.get_eq_getElem] at hget
    simp [grades_calc_avg, hi, hget, hc, string_duplicate_none]
  · intro hno h
    have hf := find_student_by_id_eq_none.2 hno
    simp [grades_calc_avg, hf]
  · cases hf : find_student_by_id g.students id with
    | none =>
      have hno := find_student_by_id_eq_none.1 hf
      simp only [grades_calc_avg, hf]
      simpa using hno
    | some i =>
      have hyes : ¬ ∀ s ∈ g.students, s.id ≠ id := by
        rw [← find_student_by_id_eq_none, hf]
        simp
      by_cases hl : (g.students.get i).courses.length = 0
      · simp only [grades_calc_avg, hf, hl, string_duplicate_none]
        simpa using hyes
      · simp only [grades_calc_avg, hf, hl, string_duplicate_none]
        simpa using hyes

theorem calc_avg_no_courses_or_unknown_witness :
    grades_calc_avg none (some ⟨[alice, bob]⟩) 2 (some none) = (0, some (some "Bob")) ∧
      grades_calc_avg none (some ⟨[alice, bob]⟩) 7 (some none) = (-1, some none) ∧
      ((grades_calc_avg none (some ⟨[alice, bob]⟩) 1 (some none)).2 = some none ↔
        ∀ s ∈ (grades.mk [alice, bob]).students, s.id ≠ 1) := by
  have hd : ids_distinct ⟨[alice, bob]⟩ := by decide
  have hb : bob ∈ (grades.mk [alice, bob]).students := by decide
  have h7 : ∀ s ∈ (grades.mk [alice, bob]).students, s.id ≠ 7 := by decide
  exact ⟨(calc_avg_no_courses_or_unknown ⟨[alice, bob]⟩ 2 none).1 hd bob hb rfl rfl,
    (calc_avg_no_courses_or_unknown ⟨[alice, bob]⟩ 7 none).2.1 h7 none,
    (calc_avg_no_courses_or_unknown ⟨[alice, bob]⟩ 1 none).2.2⟩

/-! ## Finding the students that were added -/

/-- A call keeps the names and ids of the stored students, except that a
successful `grades_add_student` appends one. -/
theorem call_apply_keys (g : grades) (c : call) :
    ∃ g1, c.apply (some g) = some g1 ∧
      (g1.students.map student.key = g.students.map student.key ∨
        ∃ h nm id, c = .add_student h (some nm) id ∧ (∀ s ∈ g.students, s.id ≠ id) ∧
          g1.students = g.students ++ [⟨nm, id, []⟩]) := by
  cases c with
  | add_student h name id =>
    rcases grades_add_student_cases h g name id with hfail | ⟨nm, hnm, hno, hsucc⟩
    · exact ⟨g, by simp [call.apply, hfail], Or.inl rfl⟩
    · exact ⟨⟨g.students ++ [⟨nm, id, []⟩]⟩, by simp only [call.apply, hsucc],
        Or.inr ⟨h, nm, id, by rw [hnm], hno, rfl⟩⟩
  | add_grade h name id grade =>
    rcases grades_add_grade_cases h g name id grade with hfail |
      ⟨pre, post, s, nm, hsplit, -, -, -, -, -, -, hsucc⟩
    · exact ⟨g, by simp [call.apply, hfail], Or.inl rfl⟩
    · refine ⟨⟨pre ++ ⟨s.name, s.id, s.courses ++ [⟨nm, grade⟩]⟩ :: post⟩,
        by simp only [call.apply, hsucc], Or.inl ?_⟩
      simp [hsplit, student.key]

/-- An `add_student` call with a present name, no allocation failure and an
id that is not stored appends the student. -/
theorem add_student_fresh (g : grades) (nm : String) (id : Int)
    (hno : ∀ s ∈ g.students, s.id ≠ id) :
    grades_add_student none (some g) (some nm) id
      = (0, some ⟨g.students ++ [⟨nm, id, []⟩]⟩) := by
  have hf := find_student_by_id_eq_none.2 hno
  simp [grades_add_student, hf, malloc_none, string_duplicate_none, list_init,
    list_push_back, clone_student_none]

/-- After a sequence of calls whose `add_student` calls have present names,
no allocation failure and ids that are distinct from one another and from
the stored ones, the names and ids of the stored students are those before,
followed by those of the `add_student` calls, in call order. -/
theorem run_keys (calls : List call) (g : grades)
    (hs : ∀ h name id, call.add_student h name id ∈ calls → h = none ∧ name ≠ none)
    (hd : (g.students.map student.id ++ calls.filterMap call.student_id).Nodup) :
    ∃ g1, run (some g) calls = some g1 ∧
      g1.students.map student.key
        = g.students.map student.key ++ calls.filterMap call.student_key ∧
      g1.students.map student.id
        = g.students.map student.id ++ calls.filterMap call.student_id := by
  induction calls generalizing g with
  | nil => exact ⟨g, rfl, by simp, by simp⟩
  | cons c t ih =>
    have hs1 : ∀ h name id, call.add_student h name id ∈ t → h = none ∧ name ≠ none :=
      fun h name id hm => hs h name id (List.mem_cons_of_mem _ hm)
    cases c with
    | add_student h name id =>
      obtain ⟨hh, hname⟩ := hs h name id (List.mem_cons_self _ _)
      subst hh
      obtain ⟨nm, rfl⟩ := Option.ne_none_iff_exists'.1 hname
      simp only [List.filterMap_cons, call.student_id, call.student_key] at hd ⊢
      have hno : ∀ s ∈ g.students, s.id ≠ id := by
        intro s hs2 hid
        have h1 := (List.nodup_append.1 hd).2.2
        exact h1 (List.mem_map_of_mem student.id hs2) (by rw [hid]; simp)
      have hadd := add_student_fresh g nm id hno
      obtain ⟨g1, hrun, hk, hi⟩ := ih ⟨g.students ++ [⟨nm, id, []⟩]⟩ hs1
        (by simpa using hd)
      refine ⟨g1, ?_, ?_, ?_⟩
      · simp only [run, call.apply, hadd]
        exact hrun
      · simpa [student.key] using hk
      · simpa using hi
    | add_grade h name id grade =>
      simp only [List.filterMap_cons, call.student_id, call.student_key] at hd ⊢
      obtain ⟨g0, hap, hkeys⟩ := call_apply_keys g (.add_grade h name id grade)
      have hk0 : g0.students.map student.key = g.students.map student.key := by
        rcases hkeys with hk | ⟨_, _, _, hc, _⟩
        · exact hk
        · cases hc
      have hi0 : g0.students.map student.id = g.students.map student.id := by
        have := congrArg (List.map Prod.snd) hk0
        simpa [student.key, Function.comp_def] using this
      obtain ⟨g1, hrun, hk, hi⟩ := ih g0 hs1 (by rw [hi0]; exact hd)
      refine ⟨g1, ?_, ?_, ?_⟩
      · simp only [run, hap]
        exact hrun
      · rw [hk, hk0]
      · rw [hi, hi0]

/-- C9. Start from the empty store that `grades_init` creates and make any
sequence of calls in which the `grades_add_student` calls have present
names, no allocation failure and pairwise distinct ids, interleaved with any
`grades_add_grade` calls.  Afterwards, for each `grades_add_student` call
(name, id) of the sequence, `grades_calc_avg` on the id writes exactly that
name, and `grades_print_student` on the id returns 0 and prints a line that
starts with the name, a blank, the id and a colon. -/
theorem added_students_are_found (calls : List call)
    (hs : ∀ h name id, call.add_student h name id ∈ calls → h = none ∧ name ≠ none)
    (hd : (calls.filterMap call.student_id).Nodup)
    (name : String) (id : Int) (hmem : call.add_student none (some name) id ∈ calls)
    (v : Option String) :
    (grades_calc_avg none (run (grades_init none) calls) id (some v)).2 = some (some name) ∧
      ∃ rest, grades_print_student (run (grades_init none) calls) id
        = (0, name ++ " " ++ print_int id ++ ":" ++ rest) := by
  have hinit : grades_init none = some ⟨[]⟩ := rfl
  obtain ⟨g1, hrun, hk, hi⟩ := run_keys calls ⟨[]⟩ hs (by simpa using hd)
  simp only [List.map_nil, List.nil_append] at hk hi
  have hkey : (name, id) ∈ g1.students.map student.key := by
    rw [hk, List.mem_filterMap]
    exact ⟨_, hmem, rfl⟩
  obtain ⟨s, hs1, hs2⟩ := List.mem_map.1 hkey
  have hname : s.name = name := congrArg Prod.fst hs2
  have hid : s.id = id := congrArg Prod.snd hs2
  have hnd : (g1.students.map student.id).Nodup := by rw [hi]; exact hd
  obtain ⟨i, hfi, hget⟩ := find_student_by_id_of_mem hnd hs1
  rw [hid] at hfi
  rw [hinit, hrun]
  constructor
  · by_cases hl : s.courses.length = 0
    · simp only [grades_calc_avg, hfi, hget, hl, string_duplicate_none, hname, if_true]
    · simp only [grades_calc_avg, hfi, hget, hl, string_duplicate_none, hname, if_false]
  · refine ⟨print_courses s.courses ++ "\n", ?_⟩
    simp only [grades_print_student, hfi, hget, hname, hid, String.append_assoc]

theorem added_students_are_found_witness :
    (grades_calc_avg none
        (run (grades_init none)
          [.add_student none (some "Alice") 1, .add_grade none (some "Math") 1 90,
            .add_student none (some "Bob") 2]) 2 (some none)).2 = some (some "Bob") ∧
      ∃ rest, grades_print_student
        (run (grades_init none)
          [.add_student none (some "Alice") 1, .add_grade none (some "Math") 1 90,
            .add_student none (some "Bob") 2]) 2
        = (0, "Bob" ++ " " ++ print_int 2 ++ ":" ++ rest) := by
  have hs : ∀ h name id, call.add_student h name id ∈
      [call.add_student none (some "Alice") 1, .add_grade none (some "Math") 1 90,
        .add_student none (some "Bob") 2] → h = none ∧ name ≠ none := by
    intro h name id hm
    simp at hm
    rcases hm with ⟨rfl, rfl, -⟩ | ⟨rfl, rfl, -⟩ <;> simp
  have hd : (List.filterMap call.student_id
      [call.add_student none (some "Alice") 1, .add_grade none (some "Math") 1 90,
        .add_student none (some "Bob") 2]).Nodup := by decide
  exact added_students_are_found _ hs hd "Bob" 2 (by simp) none

/-! ## Printing one student -/

theorem intercalate_go_course_text (t : List course) (acc : String) :
    String.intercalate.go acc "," (t.map course_text)
      = acc ++ ((if t.isEmpty then "" else ",") ++ print_courses t) := by
  induction t generalizing acc with
  | nil => simp [String.intercalate.go, print_courses]
  | cons c t ih =>
    simp only [List.map_cons, String.intercalate.go, ih, print_courses, course_text,
      List.isEmpty_cons, Bool.false_eq_true, if_false, String.append_assoc]

/-- The course loop prints the texts of the courses, in list order, with a
comma between consecutive ones and none after the last. -/
theorem print_courses_eq (l : List course) :
    print_courses l = ",".intercalate (l.map course_text) := by
  cases l with
  | nil => rfl
  | cons c t =>
    simp only [List.map_cons, String.intercalate, intercalate_go_course_text, print_courses,
      course_text, String.append_assoc]

/-- C10. For every non-null store and id: `grades_print_student` returns 1
and writes nothing when no stored student has the id; otherwise it returns 0
and writes the line of a stored student with the id (the only one when ids
are distinct): `<name> <id>:`, then for each of its courses in insertion
order the text ` <course_name> <grade>`, with one `,` between consecutive
courses and none after the last, then a newline.  Alice (id 1) with Math 90
and Physics 85 prints `Alice 1: Math 90, Physics 85\n`; Bob (id 2) without
courses prints `Bob 2:\n`. -/
theorem print_student_format (g : grades) (id : Int) :
    ((∀ s ∈ g.students, s.id ≠ id) → grades_print_student (some g) id = (1, "")) ∧
      ((∃ s ∈ g.students, s.id = id) →
        ∃ s ∈ g.students, s.id = id ∧
          grades_print_student (some g) id
            = (0, s.name ++ " " ++ print_int id ++ ":"
                ++ ",".intercalate (s.courses.map fun c =>
                    " " ++ c.name ++ " " ++ print_int c.grade) ++ "\n")) ∧
      grades_print_student (some ⟨[alice, bob]⟩) 1 = (0, "Alice 1: Math 90, Physics 85\n") ∧
      grades_print_student (some ⟨[alice, bob]⟩) 2 = (0, "Bob 2:\n") := by
  refine ⟨?_, ?_, by decide, by decide⟩
  · intro hno
    have hf := find_student_by_id_eq_none.2 hno
    simp [grades_print_student, hf]
  · intro hex
    cases hf : find_student_by_id g.students id with
    | none =>
      obtain ⟨s, hs, hid⟩ := hex
      exact absurd hid (find_student_by_id_eq_none.1 hf s hs)
    | some i =>
      have hid := (find_student_by_id_some hf).1
      refine ⟨g.students.get i, List.get_mem _ _ _, hid, ?_⟩
      have := print_courses_eq (g.students.get i).courses
      simp only [grades_print_student, hf]
      rw [hid, this]
      rfl

/-! ## The stores that the interface can build -/

/-- A call keeps the ids of a store pairwise distinct. -/
theorem call_apply_ids_distinct (g : grades) (hd : ids_distinct g) (c : call) :
    ∃ g1, c.apply (some g) = some g1 ∧ ids_distinct g1 := by
  obtain ⟨g1, hap, hk⟩ := call_apply_keys g c
  refine ⟨g1, hap, ?_⟩
  rcases hk with hk | ⟨_, nm, id, -, hno, hst⟩
  · have hi : g1.students.map student.id = g.students.map student.id := by
      have := congrArg (List.map Prod.snd) hk
      simpa [student.key, Function.comp_def] using this
    unfold ids_distinct
    rw [hi]
    exact hd
  · unfold ids_distinct at hd ⊢
    rw [hst, List.map_append, List.nodup_append]
    refine ⟨hd, by simp, ?_⟩
    intro a ha hb
    obtain ⟨s, hs, rfl⟩ := List.mem_map.1 ha
    simp at hb
    exact hno s hs hb

/-- Every store built from the empty store by calls of `grades_add_student`
and `grades_add_grade`, whatever their arguments and allocation plans, is
non-null and has pairwise distinct ids. -/
theorem run_ids_distinct (calls : List call) (g : grades) (hd : ids_distinct g) :
    ∃ g1, run (some g) calls = some g1 ∧ ids_distinct g1 := by
  induction calls generalizing g with
  | nil => exact ⟨g, rfl, hd⟩
  | cons c t ih =>
    obtain ⟨g0, hap, hd0⟩ := call_apply_ids_distinct g hd c
    obtain ⟨g1, hrun, hd1⟩ := ih g0 hd0
    exact ⟨g1, by simp only [run, hap]; exact hrun, hd1⟩

/-! ## Printing every student -/

/-- As long as the lookup by id of each remaining student returns that
student, the loop of `grades_print_all` appends their lines in order and
returns 0. -/
theorem print_all_loop_lines (g : grades) (l : List student) (out : String)
    (hl : ∀ s ∈ l, grades_print_student (some g) s.id = (0, student_line s)) :
    print_all_loop (some g) out l = (0, l.foldl (fun acc s => acc ++ student_line s) out) := by
  induction l generalizing out with
  | nil => rfl
  | cons s t ih =>
    have hs := hl s (List.mem_cons_self _ _)
    simp only [print_all_loop, hs, List.foldl_cons]
    simpa using ih (out ++ student_line s) (fun x hx => hl x (List.mem_cons_of_mem _ hx))

/-- In a store with pairwise distinct ids the lookup by a stored student's id
prints that student's own line. -/
theorem print_student_own_line (g : grades) (hd : ids_distinct g) (s : student)
    (hs : s ∈ g.students) : grades_print_student (some g) s.id = (0, student_line s) := by
  obtain ⟨i, hi, hget⟩ := find_student_by_id_of_mem hd hs
  simp only [grades_print_student, hi, hget, print_courses_eq, student_line]

/-- The loop of `grades_print_all` never meets a failing print: the id of a
stored student is always found. -/
theorem print_all_loop_ok (g : grades) (l : List student) (out : String)
    (hl : ∀ s ∈ l, s ∈ g.students) : (print_all_loop (some g) out l).1 = 0 := by
  induction l generalizing out with
  | nil => rfl
  | cons s t ih =>
    have hs : ∃ x ∈ g.students, x.id = s.id := ⟨s, hl s (List.mem_cons_self _ _), rfl⟩
    cases hf : find_student_by_id g.students s.id with
    | none => exact absurd hs (by
        rintro ⟨x, hx, hid⟩
        exact find_student_by_id_eq_none.1 hf x hx hid)
    | some i =>
      simp only [print_all_loop, grades_print_student, hf]
      simpa using ih _ (fun x hx => hl x (List.mem_cons_of_mem _ hx))

/-- Every call leaves a non-null store non-null. -/
theorem call_apply_some (g : grades) (c : call) : ∃ g1, c.apply (some g) = some g1 := by
  obtain ⟨g1, h, -⟩ := call_apply_keys g c
  exact ⟨g1, h⟩

/-- A property of the empty store that every call preserves holds of every
store that the interface can build. -/
theorem run_invariant (P : grades → Prop)
    (hstep : ∀ (g : grades) (c : call) (g1 : grades), P g → c.apply (some g) = some g1 → P g1)
    (calls : List call) (g : grades) (hg : P g) :
    ∃ g1, run (some g) calls = some g1 ∧ P g1 := by
  induction calls generalizing g with
  | nil => exact ⟨g, rfl, hg⟩
  | cons c t ih =>
    obtain ⟨g0, hap⟩ := call_apply_some g c
    obtain ⟨g1, hrun, hP⟩ := ih g0 (hstep g c g0 hg hap)
    exact ⟨g1, by simp only [run, hap]; exact hrun, hP⟩

/-- A successful `grades_init` creates the empty store. -/
theorem grades_init_some (h : Alloc) :
    grades_init h = none ∨ grades_init h = some ⟨[]⟩ := by
  unfold grades_init
  rcases hm : malloc h with ⟨_ | _, h1⟩
  · simp
  · rcases hli : (list_init h1 : Option (List student) × Alloc) with ⟨_ | l, h2⟩
    · simp [hli]
    · have hl : l = [] := by
        unfold list_init at hli
        split at hli <;> simp_all
      subst hl
      simp [hli]

/-- C11. For every store built from the empty store of a successful
`grades_init` by any calls of `grades_add_student` and `grades_add_grade`,
`grades_print_all` returns 0 and writes exactly the concatenation, in
student insertion order, of the lines of the stored students, each line
being the student's own (`<name> <id>:` and its courses); and each of those
lines is what `grades_print_student` writes for that student's id.  For the
store built by adding Alice (id 1), Bob (id 2) and the grade Math 90 for
id 1 the output is `Alice 1: Math 90\nBob 2:\n`. -/
theorem print_all_lines (h : Alloc) (calls : List call) :
    (grades_init h = none ∨
      ∃ g, run (grades_init h) calls = some g ∧
        grades_print_all (some g) = (0, String.join (g.students.map student_line)) ∧
        ∀ s ∈ g.students, grades_print_student (some g) s.id = (0, student_line s)) ∧
      grades_print_all (run (grades_init none) alice_bob_calls)
        = (0, "Alice 1: Math 90\nBob 2:\n") := by
  refine ⟨?_, by decide⟩
  rcases grades_init_some h with h0 | h0
  · exact Or.inl h0
  · right
    rw [h0]
    obtain ⟨g, hrun, hd⟩ := run_ids_distinct calls ⟨[]⟩ (by simp [ids_distinct])
    have hown := print_student_own_line g hd
    refine ⟨g, hrun, ?_, hown⟩
    simp only [grades_print_all, print_all_loop_lines g g.students "" hown, String.join,
      List.foldl_map]

/-- C19. For every non-null store, whatever students it holds,
`grades_print_all` returns 0: each print looks a stored student up by its
own id, which is found.  For a null store it returns 1. -/
theorem print_all_returns_zero (g : grades) :
    (grades_print_all (some g)).1 = 0 ∧ (grades_print_all none).1 = 1 := by
  refine ⟨?_, rfl⟩
  simp only [grades_print_all]
  exact print_all_loop_ok g g.students "" (fun s hs => hs)

/-! ## The invariants of the data model -/

/-- What one call does to a non-null store: nothing, or it appends a new
student without courses, or it appends a new course with a grade in [0,100]
and a name that the student does not have yet to one student. -/
theorem call_apply_cases (g : grades) (c : call) :
    c.apply (some g) = some g ∨
      (∃ nm id, (∀ s ∈ g.students, s.id ≠ id) ∧
        c.apply (some g) = some ⟨g.students ++ [⟨nm, id, []⟩]⟩) ∨
      ∃ (pre post : List student) (s : student) (nm : String) (grade : Int),
        g.students = pre ++ s :: post ∧ (∀ c ∈ s.courses, c.name ≠ nm) ∧
        0 ≤ grade ∧ grade ≤ 100 ∧
        c.apply (some g)
          = some ⟨pre ++ ⟨s.name, s.id, s.courses ++ [⟨nm, grade⟩]⟩ :: post⟩ := by
  cases c with
  | add_student h name id =>
    rcases grades_add_student_cases h g name id with hfail | ⟨nm, -, hno, hsucc⟩
    · exact Or.inl (by simp only [call.apply, hfail])
    · exact Or.inr (Or.inl ⟨nm, id, hno, by simp only [call.apply, hsucc]⟩)
  | add_grade h name id grade =>
    rcases grades_add_grade_cases h g name id grade with hfail |
      ⟨pre, post, s, nm, hsplit, -, -, -, hnew, h0, h100, hsucc⟩
    · exact Or.inl (by simp only [call.apply, hfail])
    · exact Or.inr (Or.inr ⟨pre, post, s, nm, grade, hsplit, hnew, h0, h100,
        by simp only [call.apply, hsucc]⟩)

/-- A call keeps the course names of every student pairwise distinct. -/
theorem call_apply_courses_distinct (g : grades) (c : call) (g1 : grades)
    (hg : courses_distinct g) (hap : c.apply (some g) = some g1) : courses_distinct g1 := by
  rcases call_apply_cases g c with h | ⟨nm, id, -, h⟩ |
    ⟨pre, post, s, nm, grade, hsplit, hnew, -, -, h⟩
  · rw [h] at hap
    cases hap
    exact hg
  · rw [h] at hap
    cases hap
    intro s hs
    simp only [List.mem_append, List.mem_singleton] at hs
    rcases hs with hs | rfl
    · exact hg s hs
    · simp
  · rw [h] at hap
    cases hap
    intro t ht
    simp only [List.mem_append, List.mem_cons] at ht
    have hmem : ∀ x, x ∈ pre ∨ x = s ∨ x ∈ post → x ∈ g.students := by
      intro x hx
      rw [hsplit]
      simpa using hx
    rcases ht with ht | rfl | ht
    · exact hg t (hmem t (Or.inl ht))
    · have hs := hg s (hmem s (Or.inr (Or.inl rfl)))
      simp only [List.map_append, List.map_cons, List.map_nil]
      rw [List.nodup_append]
      refine ⟨hs, by simp, ?_⟩
      intro a ha hb
      obtain ⟨c0, hc0, rfl⟩ := List.mem_map.1 ha
      simp at hb
      exact hnew c0 hc0 hb
    · exact hg t (hmem t (Or.inr (Or.inr ht)))

/-- A call keeps every stored grade in [0,100]. -/
theorem call_apply_grades_in_range (g : grades) (c : call) (g1 : grades)
    (hg : grades_in_range g) (hap : c.apply (some g) = some g1) : grades_in_range g1 := by
  rcases call_apply_cases g c with h | ⟨nm, id, -, h⟩ |
    ⟨pre, post, s, nm, grade, hsplit, -, h0, h100, h⟩
  · rw [h] at hap
    cases hap
    exact hg
  · rw [h] at hap
    cases hap
    intro s hs
    simp only [List.mem_append, List.mem_singleton] at hs
    rcases hs with hs | rfl
    · exact hg s hs
    · simp
  · rw [h] at hap
    cases hap
    intro t ht
    simp only [List.mem_append, List.mem_cons] at ht
    have hmem : ∀ x, x ∈ pre ∨ x = s ∨ x ∈ post → x ∈ g.students := by
      intro x hx
      rw [hsplit]
      simpa using hx
    rcases ht with ht | rfl | ht
    · exact hg t (hmem t (Or.inl ht))
    · have hs := hg s (hmem s (Or.inr (Or.inl rfl)))
      intro c0 hc0
      simp only [List.mem_append, List.mem_singleton] at hc0
      rcases hc0 with hc0 | rfl
      · exact hs c0 hc0
      · exact ⟨h0, h100⟩
    · exact hg t (hmem t (Or.inr (Or.inr ht)))

/-- From a successful `grades_init`, a property of the empty store that every
call preserves holds after every sequence of calls. -/
theorem reachable_invariant (P : grades → Prop) (h0 : P ⟨[]⟩)
    (hstep : ∀ (g : grades) (c : call) (g1 : grades), P g → c.apply (some g) = some g1 → P g1)
    (h : Alloc) (calls : List call) :
    grades_init h = none ∨ ∃ g, run (grades_init h) calls = some g ∧ P g := by
  rcases grades_init_some h with hi | hi
  · exact Or.inl hi
  · right
    rw [hi]
    exact run_invariant P hstep calls ⟨[]⟩ h0

/-- C12. After a successful `grades_init` and any sequence of
`grades_add_student` and `grades_add_grade` calls, with any arguments and
allocation plans (so successful or failing), the store is non-null and every
id appears at most once among the stored students. -/
theorem reachable_ids_distinct (h : Alloc) (calls : List call) :
    grades_init h = none ∨
      ∃ g, run (grades_init h) calls = some g ∧ ids_distinct g ∧
        ∀ id, (g.students.map student.id).count id ≤ 1 := by
  have := reachable_invariant ids_distinct (by simp [ids_distinct])
    (fun g c g1 hg hap => by
      obtain ⟨g2, h2, hd⟩ := call_apply_ids_distinct g hg c
      rw [hap] at h2
      cases h2
      exact hd) h calls
  rcases this with h0 | ⟨g, hrun, hd⟩
  · exact Or.inl h0
  · exact Or.inr ⟨g, hrun, hd, fun id => List.nodup_iff_count_le_one.1 hd id⟩

/-- C13. After a successful `grades_init` and any sequence of
`grades_add_student` and `grades_add_grade` calls, with any arguments and
allocation plans, no stored student has two courses with the same name. -/
theorem reachable_courses_distinct (h : Alloc) (calls : List call) :
    grades_init h = none ∨
      ∃ g, run (grades_init h) calls = some g ∧ courses_distinct g ∧
        ∀ s ∈ g.students, ∀ name, (s.courses.map course.name).count name ≤ 1 := by
  have := reachable_invariant courses_distinct (by simp [courses_distinct])
    (fun g c g1 hg hap => call_apply_courses_distinct g c g1 hg hap) h calls
  rcases this with h0 | ⟨g, hrun, hd⟩
  · exact Or.inl h0
  · exact Or.inr ⟨g, hrun, hd, fun s hs name => List.nodup_iff_count_le_one.1 (hd s hs) name⟩

/-- C14. After a successful `grades_init` and any sequence of
`grades_add_student` and `grades_add_grade` calls, with any arguments and
allocation plans, every stored course of every student has a grade `g` with
`0 ≤ g ≤ 100`. -/
theorem reachable_grades_in_range (h : Alloc) (calls : List call) :
    grades_init h = none ∨
      ∃ g, run (grades_init h) calls = some g ∧
        ∀ s ∈ g.students, ∀ c ∈ s.courses, 0 ≤ c.grade ∧ c.grade ≤ 100 :=
  reachable_invariant grades_in_range (by simp [grades_in_range])
    (fun g c g1 hg hap => call_apply_grades_in_range g c g1 hg hap) h calls

/-! ## Allocation failure -/

/-- Writing a student back to its own position leaves the store as it was. -/
theorem grades_set_get_self (g : grades) (i : Fin g.students.length) :
    grades.mk (g.students.set i ⟨(g.students.get i).name, (g.students.get i).id,
      (g.students.get i).courses⟩) = g := by
  have h : ∀ (l : List student) (i : Fin l.length),
      l.set i ⟨(l.get i).name, (l.get i).id, (l.get i).courses⟩ = l := by
    intro l
    induction l with
    | nil => intro i; exact i.elim0
    | cons a t ih =>
      rintro ⟨_ | n, hn⟩
      · rfl
      · simpa using ih ⟨n, by simpa using hn⟩
  rw [h]

/-- C15. `grades_add_student` makes at most six allocation requests: the new
record, the duplicated name, the nested course container, and the three of
the clone that the container's append makes (its record, name and course
container).  `grades_add_grade` makes at most four: the new record, the
duplicated name, and the two of the clone that the append makes (its record
and name).  Whichever of these requests fails (plan `some k` fails request
number `k`, counted from 0), the operation returns 1 and the store is
exactly as before the call, for every store (null included) and all
arguments; and a plan whose failure lies beyond those requests changes
nothing in the outcome of the call. -/
theorem allocation_failure_atomic (grades : Option grades) (name : Option String)
    (id grade : Int) (k : ℕ) :
    (k < 6 → grades_add_student (some k) grades name id = (1, grades)) ∧
      (6 ≤ k → grades_add_student (some k) grades name id
        = grades_add_student none grades name id) ∧
      (k < 4 → grades_add_grade (some k) grades name id grade = (1, grades)) ∧
      (4 ≤ k → grades_add_grade (some k) grades name id grade
        = grades_add_grade none grades name id grade) := by
  cases grades with
  | none => simp [grades_add_student, grades_add_grade]
  | some g =>
    cases name with
    | none => simp [grades_add_student, grades_add_grade]
    | some nm =>
      refine ⟨?_, ?_, ?_, ?_⟩
      · intro hk
        by_cases hf : (find_student_by_id g.students id).isSome
        · simp [grades_add_student, hf]
        · interval_cases k <;>
            simp [grades_add_student, hf, malloc, string_duplicate, list_init, list_push_back,
              clone_student, clone_courses]
      · intro hk
        obtain ⟨j, rfl⟩ : ∃ j, k = j + 6 := ⟨k - 6, by omega⟩
        by_cases hf : (find_student_by_id g.students id).isSome
        · simp [grades_add_student, hf]
        · simp [grades_add_student, hf, malloc, string_duplicate, list_init, list_push_back,
            clone_student, clone_courses]
      · intro hk
        by_cases hr : grade < 0 ∨ grade > 100
        · simp [grades_add_grade, hr]
        · cases hf : find_student_by_id g.students id with
          | none => simp [grades_add_grade, hr, hf]
          | some i =>
            have hset := grades_set_get_self g i
            simp only [List.get_eq_getElem] at hset
            cases hh : has_course (g.students.get i).courses nm with
            | true => simp [grades_add_grade, hr, hf, hh, ← List.get_eq_getElem]
            | false =>
              simp only [List.get_eq_getElem] at hh
              interval_cases k <;>
                simp [grades_add_grade, hr, hf, hh, malloc, string_duplicate, list_push_back,
                  clone_course, hset]
      · intro hk
        obtain ⟨j, rfl⟩ : ∃ j, k = j + 4 := ⟨k - 4, by omega⟩
        by_cases hr : grade < 0 ∨ grade > 100
        · simp [grades_add_grade, hr]
        · cases hf : find_student_by_id g.students id with
          | none => simp [grades_add_grade, hr, hf]
          | some i =>
            cases hh : has_course (g.students.get i).courses nm with
            | true => simp [grades_add_grade, hr, hf, hh, ← List.get_eq_getElem]
            | false =>
              simp only [List.get_eq_getElem] at hh
              simp [grades_add_grade, hr, hf, hh, malloc, string_duplicate, list_push_back,
                clone_course]

/-! ## The range of the average -/

theorem round_half_even_le {t : ℚ} {N : ℤ} (h : t ≤ N) : round_half_even t ≤ N := by
  have hf : ⌊t⌋ ≤ N := by
    have := Int.floor_le_floor h
    simpa using this
  rcases lt_or_eq_of_le hf with hlt | heq
  · unfold round_half_even
    split_ifs <;> omega
  · have ht : t = ⌊t⌋ := le_antisymm (by rw [heq]; exact h) (Int.floor_le t)
    unfold round_half_even
    rw [if_pos (by rw [← ht]; norm_num)]
    exact hf

theorem round_half_even_ge {t : ℚ} {N : ℤ} (h : (N : ℚ) ≤ t) : N ≤ round_half_even t := by
  have hf : N ≤ ⌊t⌋ := Int.le_floor.2 h
  unfold round_half_even
  split_ifs <;> omega

/-- Rounding does not pass a binary32 value: if `q` is at most a dyadic
number whose exponent is not below that of the unit in the last place at
`q`, so is the rounded `q`. -/
theorem f32_round_le (q : ℚ) (m k : ℤ) (hq : q ≤ m * 2 ^ k) (hk : f32_ulp_exp q ≤ k) :
    f32_round q ≤ m * 2 ^ k := by
  unfold f32_round
  generalize f32_ulp_exp q = e at hk
  obtain ⟨n, rfl⟩ : ∃ n : ℕ, k = e + n := ⟨(k - e).toNat, by omega⟩
  have h2 : (2 : ℚ) ≠ 0 := by norm_num
  have hpos : (0 : ℚ) < 2 ^ e := by positivity
  have h1 : q / 2 ^ e ≤ ((m * 2 ^ n : ℤ) : ℚ) := by
    rw [div_le_iff₀ hpos]
    calc q ≤ m * 2 ^ (e + (n : ℤ)) := hq
      _ = ((m * 2 ^ n : ℤ) : ℚ) * 2 ^ e := by
        rw [zpow_add₀ h2, zpow_natCast]; push_cast; ring
  have h3 := round_half_even_le h1
  calc (round_half_even (q / 2 ^ e) : ℚ) * 2 ^ e
      ≤ ((m * 2 ^ n : ℤ) : ℚ) * 2 ^ e := by
        apply mul_le_mul_of_nonneg_right _ hpos.le
        exact_mod_cast h3
    _ = m * 2 ^ (e + (n : ℤ)) := by
        rw [zpow_add₀ h2, zpow_natCast]; push_cast; ring

theorem f32_round_ge (q : ℚ) (m k : ℤ) (hq : (m : ℚ) * 2 ^ k ≤ q) (hk : f32_ulp_exp q ≤ k) :
    (m : ℚ) * 2 ^ k ≤ f32_round q := by
  unfold f32_round
  generalize f32_ulp_exp q = e at hk
  obtain ⟨n, rfl⟩ : ∃ n : ℕ, k = e + n := ⟨(k - e).toNat, by omega⟩
  have h2 : (2 : ℚ) ≠ 0 := by norm_num
  have hpos : (0 : ℚ) < 2 ^ e := by positivity
  have h1 : ((m * 2 ^ n : ℤ) : ℚ) ≤ q / 2 ^ e := by
    rw [le_div_iff₀ hpos]
    calc ((m * 2 ^ n : ℤ) : ℚ) * 2 ^ e = m * 2 ^ (e + (n : ℤ)) := by
          rw [zpow_add₀ h2, zpow_natCast]; push_cast; ring
      _ ≤ q := hq
  have h3 := round_half_even_ge h1
  calc (m : ℚ) * 2 ^ (e + (n : ℤ)) = ((m * 2 ^ n : ℤ) : ℚ) * 2 ^ e := by
        rw [zpow_add₀ h2, zpow_natCast]; push_cast; ring
    _ ≤ (round_half_even (q / 2 ^ e) : ℚ) * 2 ^ e := by
        apply mul_le_mul_of_nonneg_right _ hpos.le
        exact_mod_cast h3

theorem f32_round_nonneg {q : ℚ} (hq : 0 ≤ q) : 0 ≤ f32_round q := by
  unfold f32_round
  have h1 : (0 : ℤ) ≤ round_half_even (q / 2 ^ f32_ulp_exp q) :=
    round_half_even_ge (by
      have : (0 : ℚ) ≤ q / 2 ^ f32_ulp_exp q := div_nonneg hq (by positivity)
      simpa using this)
  have h2 : (0 : ℚ) ≤ (round_half_even (q / 2 ^ f32_ulp_exp q) : ℚ) := by exact_mod_cast h1
  exact mul_nonneg h2 (by positivity)

/-- A value in [0,100] rounds to a value in [0,100]. -/
theorem f32_round_le_hundred {q : ℚ} (h0 : 0 ≤ q) (h100 : q ≤ 100) : f32_round q ≤ 100 := by
  by_cases hz : q = 0
  · rw [hz, f32_round_zero]; norm_num
  · have hk : f32_ulp_exp q ≤ -17 :=
      f32_ulp_exp_le q (-17) hz (by norm_num) (by
        rw [abs_of_nonneg h0]
        have : (2 : ℚ) ^ ((-17 : ℤ) + 24) = 128 := by norm_num
        rw [this]
        linarith)
    have h := f32_round_le q 13107200 (-17) (by
      have : ((13107200 : ℤ) : ℚ) * 2 ^ (-17 : ℤ) = 100 := by norm_num
      rw [this]; exact h100) hk
    have : ((13107200 : ℤ) : ℚ) * 2 ^ (-17 : ℤ) = 100 := by norm_num
    rw [this] at h
    exact h

/-- The running sum of grades that are not negative is not negative. -/
theorem sum_grades_nonneg (l : List course) (hl : ∀ c ∈ l, 0 ≤ c.grade) (s : ℚ) (hs : 0 ≤ s) :
    0 ≤ sum_grades s l := by
  induction l generalizing s with
  | nil => simpa [sum_grades] using hs
  | cons c t ih =>
    simp only [sum_grades]
    apply ih (fun d hd => hl d (List.mem_cons_of_mem _ hd))
    apply f32_round_nonneg
    have h1 : (0 : ℚ) ≤ f32_round (c.grade : ℚ) :=
      f32_round_nonneg (by exact_mod_cast hl c (List.mem_cons_self _ _))
    linarith

theorem sum_grade_bounds (l : List course) (hl : ∀ c ∈ l, 0 ≤ c.grade ∧ c.grade ≤ 100) :
    0 ≤ (l.map course.grade).sum ∧ (l.map course.grade).sum ≤ 100 * (l.length : ℤ) := by
  induction l with
  | nil => simp
  | cons c t ih =>
    have hc := hl c (List.mem_cons_self _ _)
    have ht := ih (fun d hd => hl d (List.mem_cons_of_mem _ hd))
    simp only [List.map_cons, List.sum_cons, List.length_cons]
    push_cast
    omega

/-! ## A long course list -/

theorem digitChar_inj : ∀ a < 10, ∀ b < 10, Nat.digitChar a = Nat.digitChar b → a = b := by
  decide

theorem map_digitChar_inj (l1 l2 : List ℕ) (h1 : ∀ x ∈ l1, x < 10) (h2 : ∀ x ∈ l2, x < 10)
    (h : l1.map Nat.digitChar = l2.map Nat.digitChar) : l1 = l2 := by
  induction l1 generalizing l2 with
  | nil =>
    cases l2 with
    | nil => rfl
    | cons b t => simp at h
  | cons a t ih =>
    cases l2 with
    | nil => simp at h
    | cons b t2 =>
      simp only [List.map_cons, List.cons.injEq] at h
      have hab := digitChar_inj a (h1 a (List.mem_cons_self _ _)) b
        (h2 b (List.mem_cons_self _ _)) h.1
      have ht := ih t2 (fun x hx => h1 x (List.mem_cons_of_mem _ hx))
        (fun x hx => h2 x (List.mem_cons_of_mem _ hx)) h.2
      rw [hab, ht]

/-- Different numbers have different numerals. -/
theorem numeral_injective : Function.Injective numeral := by
  intro a b h
  unfold numeral at h
  have h1 := congrArg String.data h
  simp only at h1
  have h2 := map_digitChar_inj _ _
    (fun x hx => Nat.digits_lt_base (by norm_num) (List.mem_reverse.1 hx))
    (fun x hx => Nat.digits_lt_base (by norm_num) (List.mem_reverse.1 hx)) h1
  exact Nat.digits_inj_iff.1 (List.reverse_injective h2)

/-- Grades in [0,100] for courses with new, pairwise different names are all
accepted, in order, when no allocation fails. -/
theorem run_add_grades (nm : String) (id gr : Int) (h0 : 0 ≤ gr) (h100 : gr ≤ 100)
    (names : List String) (cs : List course) (hnd : names.Nodup)
    (hfresh : ∀ c ∈ cs, c.name ∉ names) :
    run (some ⟨[⟨nm, id, cs⟩]⟩) (names.map fun x => call.add_grade none (some x) id gr)
      = some ⟨[⟨nm, id, cs ++ names.map fun x => ⟨x, gr⟩⟩]⟩ := by
  induction names generalizing cs with
  | nil => simp [run]
  | cons x t ih =>
    have hx : has_course cs x = false :=
      has_course_eq_false.2 (fun c hc hcx => hfresh c hc (by rw [hcx]; exact List.mem_cons_self _ _))
    have hr : ¬ (gr < 0 ∨ gr > 100) := by omega
    have hstep : grades_add_grade none (some ⟨[⟨nm, id, cs⟩]⟩) (some x) id gr
        = (0, some ⟨[⟨nm, id, cs ++ [⟨x, gr⟩]⟩]⟩) := by
      simp [grades_add_grade, hr, find_student_by_id, hx, malloc_none, string_duplicate_none,
        list_push_back, clone_course_none]
    simp only [List.map_cons, run, call.apply, hstep]
    have hfresh1 : ∀ c ∈ cs ++ [⟨x, gr⟩], c.name ∉ t := by
      intro c hc
      simp only [List.mem_append, List.mem_singleton] at hc
      rcases hc with hc | rfl
      · exact fun hm => hfresh c hc (List.mem_cons_of_mem _ hm)
      · exact (List.nodup_cons.1 hnd).1
    have := ih (cs ++ [course.mk x gr]) (List.nodup_cons.1 hnd).2 hfresh1
    simpa using this

/-- The store that holds only `numbered_student n grade` is built by
`numbered_calls n grade` from the empty store. -/
theorem numbered_calls_run (n : ℕ) (gr : Int) (h0 : 0 ≤ gr) (h100 : gr ≤ 100) :
    run (grades_init none) (numbered_calls n gr) = some ⟨[numbered_student n gr]⟩ := by
  have hinit : grades_init none = some ⟨[]⟩ := rfl
  have hadd : grades_add_student none (some ⟨[]⟩) (some "Erin") 5
      = (0, some ⟨[⟨"Erin", 5, []⟩]⟩) := by
    simpa using add_student_fresh ⟨[]⟩ "Erin" 5 (by simp)
  have hnd : ((List.range n).map fun k => numeral (k + 1)).Nodup :=
    (List.nodup_range n).map (fun a b hab => by
      have := numeral_injective hab
      omega)
  have := run_add_grades "Erin" 5 gr h0 h100 _ [] hnd (by simp)
  simp only [List.map_map, List.nil_append] at this
  simp only [numbered_calls, run, call.apply, hinit, hadd, numbered_student]
  exact this

theorem numbered_student_length (n : ℕ) (gr : Int) :
    (numbered_student n gr).courses.length = n := by
  simp [numbered_student]

theorem numbered_student_grade (n : ℕ) (gr : Int) :
    ∀ c ∈ (numbered_student n gr).courses, c.grade = gr := by
  intro c hc
  simp only [numbered_student, List.mem_map] at hc
  obtain ⟨k, -, rfl⟩ := hc
  rfl

/-! ## Rounding is monotone -/

theorem round_half_even_mono {t1 t2 : ℚ} (h : t1 ≤ t2) :
    round_half_even t1 ≤ round_half_even t2 := by
  have hf : ⌊t1⌋ ≤ ⌊t2⌋ := Int.floor_le_floor h
  rcases lt_or_eq_of_le hf with hlt | heq
  · have h1 : round_half_even t1 ≤ ⌊t1⌋ + 1 := by
      unfold round_half_even
      split_ifs <;> omega
    have h2 : ⌊t2⌋ ≤ round_half_even t2 := by
      unfold round_half_even
      split_ifs <;> omega
    omega
  · unfold round_half_even
    rw [heq]
    have hfr : t1 - (⌊t2⌋ : ℚ) ≤ t2 - (⌊t2⌋ : ℚ) := by linarith
    split_ifs <;> first | omega | (exfalso; linarith)

/-- The part of `round_half_even` below a half is dropped. -/
theorem round_half_even_add_lt_half (m : ℤ) (f : ℚ) (h0 : 0 ≤ f) (h1 : f < 1 / 2) :
    round_half_even ((m : ℚ) + f) = m := by
  have hfl : ⌊(m : ℚ) + f⌋ = m := by
    rw [Int.floor_eq_iff]
    constructor <;> linarith
  unfold round_half_even
  rw [hfl, if_pos (by linarith)]

/-- The part of `round_half_even` above a half counts as one. -/
theorem round_half_even_add_gt_half (m : ℤ) (f : ℚ) (h0 : 1 / 2 < f) (h1 : f < 1) :
    round_half_even ((m : ℚ) + f) = m + 1 := by
  have hfl : ⌊(m : ℚ) + f⌋ = m := by
    rw [Int.floor_eq_iff]
    constructor <;> linarith
  unfold round_half_even
  rw [hfl, if_neg (by linarith), if_pos (by linarith)]

/-- A half above an even integer is dropped. -/
theorem round_half_even_add_half_even (m : ℤ) (heven : m % 2 = 0) :
    round_half_even ((m : ℚ) + 1 / 2) = m := by
  have hfl : ⌊(m : ℚ) + 1 / 2⌋ = m := by
    rw [Int.floor_eq_iff]
    constructor <;> norm_num
  unfold round_half_even
  rw [hfl]
  have h1 : ¬ ((m : ℚ) + 1 / 2 - (m : ℚ) < 1 / 2) := by norm_num
  have h2 : ¬ ((1 : ℚ) / 2 < (m : ℚ) + 1 / 2 - (m : ℚ)) := by norm_num
  rw [if_neg h1, if_neg h2, if_pos heven]

theorem f32_ulp_exp_mono {q r : ℚ} (hq : 0 < q) (h : q ≤ r) : f32_ulp_exp q ≤ f32_ulp_exp r := by
  unfold f32_ulp_exp
  have hr : 0 < r := lt_of_lt_of_le hq h
  have hab : |q| ≤ |r| := by rw [abs_of_pos hq, abs_of_pos hr]; exact h
  have := Int.log_mono_right (b := 2) (abs_pos.2 hq.ne') hab
  exact max_le_max (by omega) le_rfl

/-- Rounding to binary32 keeps the order of values that are not negative. -/
theorem f32_round_mono {q r : ℚ} (hq : 0 ≤ q) (h : q ≤ r) : f32_round q ≤ f32_round r := by
  rcases eq_or_lt_of_le hq with h0 | hpos
  · rw [← h0, f32_round_zero]
    exact f32_round_nonneg (le_trans hq h)
  have hr : 0 < r := lt_of_lt_of_le hpos h
  have hle := f32_ulp_exp_mono hpos h
  rcases eq_or_lt_of_le hle with heq | hlt
  · -- the same unit in the last place
    unfold f32_round
    rw [heq]
    have hp : (0 : ℚ) < 2 ^ f32_ulp_exp r := by positivity
    have h1 : q / 2 ^ f32_ulp_exp r ≤ r / 2 ^ f32_ulp_exp r :=
      div_le_div_of_nonneg_right h hp.le
    have h2 := round_half_even_mono h1
    apply mul_le_mul_of_nonneg_right _ hp.le
    exact_mod_cast h2
  · -- a power of two lies between them
    have her : f32_ulp_exp r = Int.log 2 |r| - 23 := by
      unfold f32_ulp_exp at hlt ⊢
      omega
    have hlq : Int.log 2 |q| < f32_ulp_exp r + 23 := by
      unfold f32_ulp_exp at hlt
      omega
    have hq2 : q < 2 ^ (f32_ulp_exp r + 23) := by
      have := (Int.lt_zpow_iff_log_lt (b := 2) (by norm_num) (abs_pos.2 hpos.ne')).2 hlq
      rwa [abs_of_pos hpos] at this
    have hr2 : (2 : ℚ) ^ (f32_ulp_exp r + 23) ≤ r := by
      have := Int.zpow_log_le_self (b := 2) (by norm_num) (abs_pos.2 hr.ne')
      rw [abs_of_pos hr] at this
      have h3 : f32_ulp_exp r + 23 = Int.log 2 |r| := by omega
      rw [h3, abs_of_pos hr]
      exact this
    have h2 : (2 : ℚ) ≠ 0 := by norm_num
    have hA := f32_round_le q 1 (f32_ulp_exp r + 23) (by
      simpa using hq2.le) (by omega)
    have hB := f32_round_ge r (2 ^ 23) (f32_ulp_exp r) (by
      have : ((2 ^ 23 : ℤ) : ℚ) * 2 ^ f32_ulp_exp r = 2 ^ (f32_ulp_exp r + 23) := by
        rw [zpow_add₀ h2]; push_cast; norm_num; ring
      rw [this]; exact hr2) le_rfl
    have hC : ((1 : ℤ) : ℚ) * 2 ^ (f32_ulp_exp r + 23)
        = ((2 ^ 23 : ℤ) : ℚ) * 2 ^ f32_ulp_exp r := by
      rw [zpow_add₀ h2]; push_cast; norm_num; ring
    rw [hC] at hA
    exact le_trans hA hB

/-! ## The running sum of grades of 100 -/

theorem float_sum_100_low (k : ℕ) (hk : k ≤ 671088) : float_sum_100 k = 100 * k := by
  unfold float_sum_100
  rw [if_pos hk]

theorem float_sum_100_mid (j : ℕ) (hj : j ≤ 4893356) :
    float_sum_100 (671088 + j) = 67108800 + 96 * j := by
  unfold float_sum_100
  rcases Nat.eq_zero_or_pos j with h0 | hpos
  · subst h0
    simp
  · rw [if_neg (by omega), if_pos (by omega)]
    have : 671088 + j - 671088 = j := by omega
    rw [this]

theorem float_sum_100_high (j : ℕ) : float_sum_100 (5564444 + j) = 536870976 + 128 * j := by
  unfold float_sum_100
  rcases Nat.eq_zero_or_pos j with h0 | hpos
  · subst h0
    simp
  · rw [if_neg (by omega), if_neg (by omega)]
    have : 5564444 + j - 5564444 = j := by omega
    rw [this]

/-- One more grade of 100 takes the single-precision running sum from
`float_sum_100 k` to `float_sum_100 (k + 1)`. -/
theorem float_sum_100_step (k : ℕ) (hk : k < 9000000) :
    f32_round ((float_sum_100 k : ℚ) + 100) = float_sum_100 (k + 1) := by
  rcases Nat.lt_or_ge k 671088 with h1 | h1
  · -- multiples of 4 below 2^26 are binary32 values
    rw [float_sum_100_low k h1.le, float_sum_100_low (k + 1) h1]
    have hq : ((100 * k : ℕ) : ℚ) + 100 = ((25 * (k + 1) : ℕ) : ℤ) * 2 ^ (2 : ℤ) := by
      push_cast; norm_num; ring
    have hq1 : ((100 * (k + 1) : ℕ) : ℚ) = ((25 * (k + 1) : ℕ) : ℤ) * 2 ^ (2 : ℤ) := by
      push_cast; norm_num; ring
    rw [hq1, hq]
    apply f32_round_dyadic
    apply f32_ulp_exp_le _ 2 _ (by norm_num)
    · rw [abs_of_nonneg (by positivity)]
      have : (2 : ℚ) ^ ((2 : ℤ) + 24) = 67108864 := by norm_num
      rw [this]
      have h2 : ((25 * (k + 1) : ℕ) : ℚ) < 16777216 := by
        exact_mod_cast (by omega : 25 * (k + 1) < 16777216)
      push_cast at h2 ⊢
      norm_num
      linarith
    · have : (0 : ℚ) < ((25 * (k + 1) : ℕ) : ℤ) * 2 ^ (2 : ℤ) := by positivity
      exact ne_of_gt this
  rcases Nat.lt_or_ge k 5564444 with h2 | h2
  · obtain ⟨j, rfl⟩ : ∃ j, k = 671088 + j := ⟨k - 671088, by omega⟩
    have hF := float_sum_100_mid j (by omega)
    have hF1 : float_sum_100 (671088 + j + 1) = 67108800 + 96 * (j + 1) := by
      have := float_sum_100_mid (j + 1) (by omega)
      rwa [← Nat.add_assoc] at this
    rw [hF, hF1]
    have hj0 : (0 : ℚ) ≤ j := by positivity
    have hq0 : (0 : ℚ) < ((67108800 + 96 * j : ℕ) : ℚ) + 100 := by positivity
    rcases Nat.lt_or_ge j 699051 with hb1 | hb1
    · -- floats 8 apart: a tie, the even significand wins
      have hj : (j : ℚ) ≤ 699050 := by exact_mod_cast (by omega : j ≤ 699050)
      have hr : round_half_even ((((67108800 + 96 * j : ℕ) : ℚ) + 100) / 2 ^ (3 : ℤ))
          = ((8388612 + 12 * j : ℕ) : ℤ) := by
        have : (((67108800 + 96 * j : ℕ) : ℚ) + 100) / 2 ^ (3 : ℤ)
            = (((8388612 + 12 * j : ℕ) : ℤ) : ℚ) + 1 / 2 := by
          push_cast; norm_num; ring
        rw [this]
        apply round_half_even_add_half_even
        omega
      have := f32_round_eq (((67108800 + 96 * j : ℕ) : ℚ) + 100) 3
        ((8388612 + 12 * j : ℕ) : ℤ) (by norm_num)
        (by rw [abs_of_pos hq0]; push_cast; norm_num; linarith)
        (by rw [abs_of_pos hq0]; push_cast; norm_num; linarith) hr
      rw [this]
      push_cast
      norm_num
      ring
    rcases Nat.lt_or_ge j 2097152 with hb2 | hb2
    · -- floats 16 apart: 100 is nearer to 96 than to 112
      have hj : (j : ℚ) ≤ 2097151 := by exact_mod_cast (by omega : j ≤ 2097151)
      have hjl : (699051 : ℚ) ≤ j := by exact_mod_cast hb1
      have hr : round_half_even ((((67108800 + 96 * j : ℕ) : ℚ) + 100) / 2 ^ (4 : ℤ))
          = ((4194306 + 6 * j : ℕ) : ℤ) := by
        have : (((67108800 + 96 * j : ℕ) : ℚ) + 100) / 2 ^ (4 : ℤ)
            = (((4194306 + 6 * j : ℕ) : ℤ) : ℚ) + 1 / 4 := by
          push_cast; norm_num; ring
        rw [this]
        exact round_half_even_add_lt_half _ _ (by norm_num) (by norm_num)
      have := f32_round_eq (((67108800 + 96 * j : ℕ) : ℚ) + 100) 4
        ((4194306 + 6 * j : ℕ) : ℤ) (by norm_num)
        (by rw [abs_of_pos hq0]; push_cast; norm_num; linarith)
        (by rw [abs_of_pos hq0]; push_cast; norm_num; linarith) hr
      rw [this]
      push_cast
      norm_num
      ring
    rcases Nat.lt_or_ge j 4893355 with hb3 | hb3
    · -- floats 32 apart: 100 is nearer to 96 than to 128
      have hj : (j : ℚ) ≤ 4893354 := by exact_mod_cast (by omega : j ≤ 4893354)
      have hjl : (2097152 : ℚ) ≤ j := by exact_mod_cast hb2
      have hr : round_half_even ((((67108800 + 96 * j : ℕ) : ℚ) + 100) / 2 ^ (5 : ℤ))
          = ((2097153 + 3 * j : ℕ) : ℤ) := by
        have : (((67108800 + 96 * j : ℕ) : ℚ) + 100) / 2 ^ (5 : ℤ)
            = (((2097153 + 3 * j : ℕ) : ℤ) : ℚ) + 1 / 8 := by
          push_cast; norm_num; ring
        rw [this]
        exact round_half_even_add_lt_half _ _ (by norm_num) (by norm_num)
      have := f32_round_eq (((67108800 + 96 * j : ℕ) : ℚ) + 100) 5
        ((2097153 + 3 * j : ℕ) : ℤ) (by norm_num)
        (by rw [abs_of_pos hq0]; push_cast; norm_num; linarith)
        (by rw [abs_of_pos hq0]; push_cast; norm_num; linarith) hr
      rw [this]
      push_cast
      norm_num
      ring
    · -- the step across 2^29: 2^29 - 32 + 100 is nearest to 2^29 + 64
      have hj : j = 4893355 := by omega
      subst hj
      have := f32_round_eq 536870980 6 8388609 (by norm_num) (by norm_num [abs_of_pos])
        (by norm_num [abs_of_pos]) (by decide!)
      norm_num at this ⊢
      exact this
  · -- floats 64 apart: 100 is nearer to 128 than to 64
    obtain ⟨j, rfl⟩ : ∃ j, k = 5564444 + j := ⟨k - 5564444, by omega⟩
    have hF := float_sum_100_high j
    have hF1 : float_sum_100 (5564444 + j + 1) = 536870976 + 128 * (j + 1) := by
      have := float_sum_100_high (j + 1)
      rwa [← Nat.add_assoc] at this
    rw [hF, hF1]
    have hj : (j : ℚ) < 3435556 := by exact_mod_cast (by omega : j < 3435556)
    have hj0 : (0 : ℚ) ≤ j := by positivity
    have hq0 : (0 : ℚ) < ((536870976 + 128 * j : ℕ) : ℚ) + 100 := by positivity
    have hr : round_half_even ((((536870976 + 128 * j : ℕ) : ℚ) + 100) / 2 ^ (6 : ℤ))
        = ((8388610 + 2 * j : ℕ) : ℤ) + 1 := by
      have : (((536870976 + 128 * j : ℕ) : ℚ) + 100) / 2 ^ (6 : ℤ)
          = (((8388610 + 2 * j : ℕ) : ℤ) : ℚ) + 9 / 16 := by
        push_cast; norm_num; ring
      rw [this]
      exact round_half_even_add_gt_half _ _ (by norm_num) (by norm_num)
    have := f32_round_eq (((536870976 + 128 * j : ℕ) : ℚ) + 100) 6
      (((8388610 + 2 * j : ℕ) : ℤ) + 1) (by norm_num)
      (by rw [abs_of_pos hq0]; push_cast; norm_num; linarith)
      (by rw [abs_of_pos hq0]; push_cast; norm_num; linarith) hr
    rw [this]
    push_cast
    norm_num
    ring

/-- The single-precision running sum over a list of grades of 100. -/
theorem sum_grades_100 (l : List course) (hl : ∀ c ∈ l, c.grade = 100) (k : ℕ)
    (hk : k + l.length ≤ 9000000) :
    sum_grades (float_sum_100 k : ℚ) l = float_sum_100 (k + l.length) := by
  induction l generalizing k with
  | nil => simp [sum_grades]
  | cons c t ih =>
    have hc : c.grade = 100 := hl c (List.mem_cons_self _ _)
    have h100 : f32_round ((100 : ℤ) : ℚ) = 100 := by
      simpa using f32_round_intCast 100 (by norm_num)
    simp only [List.length_cons] at hk
    simp only [sum_grades, hc, h100]
    rw [float_sum_100_step k (by omega),
      ih (fun d hd => hl d (List.mem_cons_of_mem _ hd)) (k + 1) (by omega)]
    congr 2
    simp only [List.length_cons]
    omega

/-- No list of grades in [0,100] has a larger single-precision running sum
than the list of as many grades of 100: rounding keeps the order. -/
theorem sum_grades_le_float_sum_100 (l : List course)
    (hl : ∀ c ∈ l, 0 ≤ c.grade ∧ c.grade ≤ 100) (s : ℚ) (k : ℕ) (hs0 : 0 ≤ s)
    (hs : s ≤ float_sum_100 k) (hk : k + l.length ≤ 9000000) :
    sum_grades s l ≤ float_sum_100 (k + l.length) := by
  induction l generalizing s k with
  | nil => simpa [sum_grades] using hs
  | cons c t ih =>
    have hc := hl c (List.mem_cons_self _ _)
    have hg : f32_round (c.grade : ℚ) = c.grade :=
      f32_round_intCast _ (by rw [abs_of_nonneg hc.1]; omega)
    have hg0 : (0 : ℚ) ≤ c.grade := by exact_mod_cast hc.1
    have hg1 : (c.grade : ℚ) ≤ 100 := by exact_mod_cast hc.2
    simp only [List.length_cons] at hk
    simp only [sum_grades, hg]
    have hstep : f32_round (s + c.grade) ≤ float_sum_100 (k + 1) := by
      rw [← float_sum_100_step k (by omega)]
      exact f32_round_mono (by linarith) (by linarith)
    have := ih (fun d hd => hl d (List.mem_cons_of_mem _ hd)) (f32_round (s + c.grade)) (k + 1)
      (f32_round_nonneg (by linarith)) hstep (by omega)
    have hlen : k + 1 + t.length = k + (c :: t).length := by
      simp only [List.length_cons]
      omega
    rw [hlen] at this
    exact this

/-- Up to 6263494 grades of 100 the running sum has not passed the exact
sum. -/
theorem float_sum_100_le (n : ℕ) (hn : n ≤ 6263494) : float_sum_100 n ≤ 100 * n := by
  unfold float_sum_100
  split_ifs <;> omega

/-- With grades in [0,100] and at most 6263495 of them, the value that
`grades_calc_avg` computes lies in [0,100]. -/
theorem avg_value_range (l : List course) (hl : ∀ c ∈ l, 0 ≤ c.grade ∧ c.grade ≤ 100)
    (hlen : l.length ≤ 6263495) :
    0 ≤ f32_round (sum_grades 0 l / f32_round (l.length : ℕ)) ∧
      f32_round (sum_grades 0 l / f32_round (l.length : ℕ)) ≤ 100 := by
  have hs0 : 0 ≤ sum_grades 0 l := sum_grades_nonneg l (fun c hc => (hl c hc).1) 0 le_rfl
  have hsB : sum_grades 0 l ≤ float_sum_100 (0 + l.length) :=
    sum_grades_le_float_sum_100 l hl 0 0 le_rfl (by simp [float_sum_100]) (by omega)
  rw [Nat.zero_add] at hsB
  have hcnt : f32_round ((l.length : ℕ) : ℚ) = l.length := f32_round_natCast _ (by omega)
  rw [hcnt]
  have hn0 : (0 : ℚ) ≤ (l.length : ℚ) := by positivity
  have hq0 : (0 : ℚ) ≤ sum_grades 0 l / (l.length : ℚ) := div_nonneg hs0 hn0
  refine ⟨f32_round_nonneg hq0, ?_⟩
  rcases Nat.lt_or_ge l.length 6263495 with hlt | hge
  · -- the bounding sum is at most 100 per grade
    have hB : float_sum_100 l.length ≤ 100 * l.length := float_sum_100_le _ (by omega)
    have hBq : (float_sum_100 l.length : ℚ) ≤ 100 * (l.length : ℚ) := by exact_mod_cast hB
    apply f32_round_le_hundred hq0
    rcases Nat.eq_zero_or_pos l.length with h0 | hpos
    · rw [h0]; simp
    · rw [div_le_iff₀ (by exact_mod_cast hpos)]
      linarith
  · -- 6263495 grades: the bounding sum is 4 above, which rounding drops
    have hn : l.length = 6263495 := by omega
    rw [hn] at hsB ⊢
    have hB : float_sum_100 6263495 = 626349504 := by decide
    rw [hB] at hsB
    have hdiv : f32_round ((626349504 : ℚ) / 6263495) = 100 := by
      have := f32_round_eq (626349504 / 6263495) (-17) 13107200 (by norm_num)
        (by norm_num [abs_of_pos]) (by norm_num [abs_of_pos]) (by decide!)
      rw [this]
      norm_num
    have hmono : sum_grades 0 l / ((6263495 : ℕ) : ℚ) ≤ (626349504 : ℚ) / 6263495 := by
      push_cast at hsB ⊢
      exact div_le_div_of_nonneg_right hsB (by norm_num)
    have hq0' : (0 : ℚ) ≤ sum_grades 0 l / ((6263495 : ℕ) : ℚ) :=
      div_nonneg hs0 (by positivity)
    calc f32_round (sum_grades 0 l / ((6263495 : ℕ) : ℚ))
        ≤ f32_round ((626349504 : ℚ) / 6263495) := f32_round_mono hq0' hmono
      _ = 100 := hdiv

/-- C18 (as amended). After a successful `grades_init` and any sequence of
`grades_add_student` and `grades_add_grade` calls: called with a non-null
output pointer and no allocation failure, `grades_calc_avg` returns -1
exactly when no stored student has the id (for any number of courses); for a
stored student with at most 6263495 courses, whenever the call succeeds (it
writes a name, under any allocation plan) the value returned lies in
[0,100]; and called with a null output pointer it returns -1 for every id. -/
theorem calc_avg_range (h : Alloc) (calls : List call) :
    grades_init h = none ∨
      ∃ g, run (grades_init h) calls = some g ∧ ∀ (id : Int) (v : Option String),
        ((grades_calc_avg none (some g) id (some v)).1 = -1 ↔
            ∀ s ∈ g.students, s.id ≠ id) ∧
          (∀ s ∈ g.students, s.id = id → s.courses.length ≤ 6263495 →
            ∀ (h1 : Alloc) (nm : String) (r : ℚ),
              grades_calc_avg h1 (some g) id (some v) = (r, some (some nm)) →
                0 ≤ r ∧ r ≤ 100) ∧
          ∀ h1 : Alloc, grades_calc_avg h1 (some g) id none = (-1, none) := by
  have := reachable_invariant (fun g => ids_distinct g ∧ grades_in_range g)
    ⟨by simp [ids_distinct], by simp [grades_in_range]⟩
    (fun g c g1 hg hap => by
      refine ⟨?_, call_apply_grades_in_range g c g1 hg.2 hap⟩
      obtain ⟨g2, h2, hd⟩ := call_apply_ids_distinct g hg.1 c
      rw [hap] at h2
      cases h2
      exact hd) h calls
  rcases this with h0 | ⟨g, hrun, hd, hr⟩
  · exact Or.inl h0
  right
  refine ⟨g, hrun, fun id v => ⟨?_, ?_, fun h1 => rfl⟩⟩
  · cases hf : find_student_by_id g.students id with
    | none =>
      have hno := find_student_by_id_eq_none.1 hf
      simp only [grades_calc_avg, hf]
      simpa using hno
    | some i =>
      have hyes : ¬ ∀ s ∈ g.students, s.id ≠ id := by
        rw [← find_student_by_id_eq_none, hf]
        simp
      have hin := hr (g.students.get i) (List.get_mem _ _ _)
      by_cases hl : (g.students.get i).courses.length = 0
      · simp only [grades_calc_avg, hf, hl, string_duplicate_none]
        simpa using hyes
      · simp only [grades_calc_avg, hf, hl, string_duplicate_none, if_false]
        have hs := sum_grades_nonneg (g.students.get i).courses (fun c hc => (hin c hc).1) 0
          le_rfl
        have hc : (0 : ℚ) ≤ f32_round (((g.students.get i).courses.length : ℕ) : ℚ) :=
          f32_round_nonneg (by positivity)
        have hv := f32_round_nonneg (div_nonneg hs hc)
        constructor
        · intro h1
          rw [h1] at hv
          norm_num at hv
        · intro h1
          exact absurd h1 hyes
  · intro s hs hid hlen h1 nm r hres
    obtain ⟨i, hi, hget⟩ := find_student_by_id_of_mem hd hs
    rw [hid] at hi
    have hin := hr s hs
    by_cases hl : s.courses.length = 0
    · simp only [grades_calc_avg, hi, hget, hl, if_true] at hres
      rcases hsd : string_duplicate h1 s.name with ⟨_ | nm1, h2⟩
      · simp [hsd] at hres
      · simp only [hsd, Prod.mk.injEq] at hres
        rw [← hres.1]
        norm_num
    · simp only [grades_calc_avg, hi, hget, hl, if_false] at hres
      rcases hsd : string_duplicate h1 s.name with ⟨_ | nm1, h2⟩
      · simp [hsd] at hres
      · simp only [hsd, Prod.mk.injEq] at hres
        rw [← hres.1]
        exact avg_value_range s.courses hin hlen


/-- C18, the claim as stated fails.  The store built by adding the student
Erin (id 5) and then 6263496 grades of 100, for courses named `1`, ...,
`6263496`, is reachable, and every grade in it is 100.  The single-precision
running sum is exact up to 67108800, then grows by 96 per grade up to
`2^29 + 64` and by 128 per grade from there on, reaching 626349632, which is
32 above the exact sum; `grades_calc_avg` succeeds and returns
`626349632 / 6263496` rounded, `13107201 / 131072 = 100.0000076...`, the
binary32 value next above 100.  And on the reachable store that holds Alice
and Bob, a call with a null output pointer returns -1 for the stored id 1
although no allocation fails. -/
theorem calc_avg_range_counterexample :
    (run (grades_init none) (numbered_calls 6263496 100)
        = some ⟨[numbered_student 6263496 100]⟩ ∧
      (∀ c ∈ (numbered_student 6263496 100).courses, c.grade = 100) ∧
      grades_calc_avg none (some ⟨[numbered_student 6263496 100]⟩) 5 (some none)
        = (13107201 / 131072, some (some "Erin")) ∧
      ¬ ((13107201 : ℚ) / 131072 ≤ 100)) ∧
    (run (grades_init none) alice_bob_calls
        = some ⟨[⟨"Alice", 1, [⟨"Math", 90⟩]⟩, bob]⟩ ∧
      (∃ s ∈ (grades.mk [⟨"Alice", 1, [⟨"Math", 90⟩]⟩, bob]).students, s.id = 1) ∧
      grades_calc_avg none (some ⟨[⟨"Alice", 1, [⟨"Math", 90⟩]⟩, bob]⟩) 1 none
        = (-1, none)) := by
  refine ⟨⟨numbered_calls_run 6263496 100 (by norm_num) (by norm_num),
    numbered_student_grade 6263496 100, ?_, by norm_num⟩, by decide, by decide, rfl⟩
  have hlen := numbered_student_length 6263496 100
  have hfind : find_student_by_id [numbered_student 6263496 100] 5 = some ⟨0, by simp⟩ := by
    simp [find_student_by_id, numbered_student]
  have hget : [numbered_student 6263496 100].get ⟨0, by simp⟩
      = numbered_student 6263496 100 := rfl
  have hsum : sum_grades 0 (numbered_student 6263496 100).courses = 626349632 := by
    have h := sum_grades_100 _ (numbered_student_grade 6263496 100) 0
      (by rw [hlen]; norm_num)
    rw [hlen] at h
    have h0 : float_sum_100 0 = 0 := by decide
    have h1 : float_sum_100 (0 + 6263496) = 626349632 := by decide
    rw [h0, h1] at h
    simpa using h
  have hcnt : f32_round ((6263496 : ℕ) : ℚ) = 6263496 := by
    simpa using f32_round_natCast 6263496 (by norm_num)
  have hdiv : f32_round (626349632 / 6263496) = 13107201 / 131072 := by
    have := f32_round_eq (626349632 / 6263496) (-17) 13107201 (by norm_num)
      (by norm_num [abs_of_pos]) (by norm_num [abs_of_pos]) (by decide!)
    rw [this]
    norm_num
  simp only [grades_calc_avg, hfind, hget, hlen, string_duplicate_none, hsum, hcnt, hdiv]
  simp [numbered_student]

/-! ## Releasing a store -/

theorem destroy_courses_foldl (l : List course_obj) (m : Mem) :
    l.foldl (fun m1 e => destroy_course (some e) m1) m
      = ⟨m.plan, m.next, m.freed ++ l.flatMap fun c => [c.name_block, c.block]⟩ := by
  induction l generalizing m with
  | nil => simp
  | cons c t ih =>
    simp only [List.foldl_cons]
    rw [ih]
    simp [destroy_course, free_block]

/-- `destroy_student` frees the blocks that the student owns, each once,
and nothing else. -/
theorem destroy_student_frees (s : student_obj) :
    ∃ fr : List ℕ, fr.Perm (student_blocks s) ∧
      ∀ m, destroy_student (some s) m = ⟨m.plan, m.next, m.freed ++ fr⟩ := by
  refine ⟨s.name_block :: ((s.courses.elems.flatMap fun c => [c.name_block, c.block])
    ++ [s.courses.block, s.block]), ?_, ?_⟩
  · have h1 : (s.courses.elems.flatMap fun c => [c.name_block, c.block]).Perm
        (s.courses.elems.flatMap course_blocks) := by
      generalize s.courses.elems = l
      induction l with
      | nil => simp
      | cons c t ih =>
        simp only [List.flatMap_cons, course_blocks]
        exact (List.Perm.swap _ _ _).append ih
    unfold student_blocks
    have h2 : (s.name_block :: ((s.courses.elems.flatMap fun c => [c.name_block, c.block])
        ++ [s.courses.block, s.block])).Perm
        (s.name_block :: ([s.courses.block, s.block]
          ++ s.courses.elems.flatMap course_blocks)) :=
      List.Perm.cons _ ((List.perm_append_comm).trans (List.Perm.append_left _ h1))
    refine h2.trans ?_
    simp only [List.cons_append, List.nil_append]
    have h3 : [s.name_block, s.courses.block, s.block].Perm
        [s.block, s.name_block, s.courses.block] := by
      simp only [List.perm_iff_count]
      intro a
      simp only [List.count_cons, List.count_nil]
      omega
    exact h3.append_right _
  · intro m
    simp [destroy_student, list_destroy, destroy_courses_foldl, free_block]

theorem destroy_students_foldl (l : List student_obj) :
    ∃ fr : List ℕ, fr.Perm (l.flatMap student_blocks) ∧
      ∀ m, l.foldl (fun m1 e => destroy_student (some e) m1) m
        = ⟨m.plan, m.next, m.freed ++ fr⟩ := by
  induction l with
  | nil => exact ⟨[], by simp, fun m => by simp⟩
  | cons s t ih =>
    obtain ⟨fs, hps, hs⟩ := destroy_student_frees s
    obtain ⟨ft, hpt, ht⟩ := ih
    refine ⟨fs ++ ft, ?_, fun m => ?_⟩
    · simp only [List.flatMap_cons]
      exact hps.append hpt
    · simp only [List.foldl_cons, hs, ht, List.append_assoc]

/-- C17. `grades_destroy` on a null store does nothing.  On a store it frees
exactly the allocations that the store owns: the store record, the student
container, every student's record, name and course container, and every
course's record and name; each as often as the store owns it, which is once
each when the allocations are distinct (as blocks handed out by `malloc`
are), and it frees nothing else.  For the store holding Alice with two
courses and Bob with none, all twelve blocks are freed, each once. -/
theorem grades_destroy_releases :
    (∀ m, grades_destroy none m = m) ∧
      (∀ g : grades_obj, ∃ fr : List ℕ,
        fr.Perm (grades_blocks g) ∧ ((grades_blocks g).Nodup → fr.Nodup) ∧
          ∀ m, grades_destroy (some g) m = ⟨m.plan, m.next, m.freed ++ fr⟩) ∧
      grades_destroy (some store_obj) ⟨none, 12, []⟩
        = ⟨none, 12, [1, 4, 3, 6, 5, 2, 0, 10, 11, 9, 8, 7]⟩ := by
  refine ⟨fun m => rfl, fun g => ?_, by decide⟩
  obtain ⟨fr, hp, hfr⟩ := destroy_students_foldl g.students.elems
  have hperm : (fr ++ [g.students.block, g.block]).Perm (grades_blocks g) := by
    unfold grades_blocks
    refine (List.perm_append_comm).trans ?_
    simp only [List.cons_append, List.nil_append]
    exact ((List.Perm.swap _ _ _).trans (List.Perm.refl _)).trans
      (List.Perm.cons _ (List.Perm.cons _ hp))
  refine ⟨fr ++ [g.students.block, g.block], hperm, fun hnd => (hperm.nodup_iff).2 hnd,
    fun m => ?_⟩
  simp [grades_destroy, list_destroy, hfr, free_block]

/-! ## Cloning a student -/

theorem malloc_block_some {m m1 : Mem} {b : ℕ} (h : malloc_block m = (some b, m1)) :
    b = m.next ∧ m1.next = m.next + 1 ∧ m1.freed = m.freed := by
  unfold malloc_block at h
  split at h
  · simp only [Prod.mk.injEq, Option.some.injEq] at h
    obtain ⟨h1, h2⟩ := h
    subst h2
    exact ⟨h1.symm, rfl, rfl⟩
  · simp at h

theorem clone_course_mem_some {m m1 : Mem} {c r : course_obj}
    (h : clone_course_mem m c = (some r, m1)) :
    r = ⟨m.next, m.next + 1, c.name, c.grade⟩ ∧ m1.next = m.next + 2 ∧ m1.freed = m.freed := by
  unfold clone_course_mem at h
  rcases h1 : malloc_block m with ⟨_ | b, ma⟩
  · simp [h1] at h
  · obtain ⟨hb, hn, hf⟩ := malloc_block_some h1
    rcases h2 : string_duplicate_mem ma c.name with ⟨_ | nb, mb⟩
    · simp [h1, h2] at h
    · obtain ⟨hb2, hn2, hf2⟩ := malloc_block_some h2
      simp only [h1, h2, Prod.mk.injEq, Option.some.injEq] at h
      obtain ⟨hr, hm⟩ := h
      subst hr hm
      refine ⟨?_, by omega, by rw [hf2, hf]⟩
      rw [hb, hb2, hn]

theorem clone_courses_mem_some {m m1 : Mem} {acc r : list_obj course_obj}
    {l : List course_obj} (h : clone_courses_mem m acc l = (some r, m1)) :
    r = ⟨acc.block, acc.elems ++ fresh_courses m.next l⟩ ∧
      m1.next = m.next + 2 * l.length ∧ m1.freed = m.freed := by
  induction l generalizing m acc with
  | nil =>
    simp only [clone_courses_mem, Prod.mk.injEq, Option.some.injEq] at h
    obtain ⟨h1, h2⟩ := h
    subst h1 h2
    simp [fresh_courses]
  | cons c t ih =>
    rcases hcl : clone_course_mem m c with ⟨_ | cl, ma⟩
    · simp [clone_courses_mem, list_push_back_mem, hcl] at h
    · obtain ⟨hr, hn, hf⟩ := clone_course_mem_some hcl
      simp only [clone_courses_mem, list_push_back_mem, hcl, ne_eq, not_true_eq_false,
        if_false] at h
      obtain ⟨h1, h2, h3⟩ := ih h
      refine ⟨?_, ?_, by rw [h3, hf]⟩
      · rw [h1, hr, hn]
        simp [fresh_courses]
      · rw [h2, hn]
        simp only [List.length_cons]
        omega

theorem clone_student_mem_some {m m1 : Mem} {orig r : student_obj}
    (h : clone_student_mem m orig = (some r, m1)) :
    r = ⟨m.next, m.next + 1, orig.name, orig.id,
        ⟨m.next + 2, fresh_courses (m.next + 3) orig.courses.elems⟩⟩ ∧
      m1.next = m.next + 3 + 2 * orig.courses.elems.length ∧ m1.freed = m.freed := by
  unfold clone_student_mem at h
  rcases h1 : malloc_block m with ⟨_ | b, ma⟩
  · simp [h1] at h
  · obtain ⟨hb, hn, hf⟩ := malloc_block_some h1
    rcases h2 : string_duplicate_mem ma orig.name with ⟨_ | nb, mb⟩
    · simp [h1, h2] at h
    · obtain ⟨hb2, hn2, hf2⟩ := malloc_block_some h2
      rcases h3 : (list_init_mem mb : Option (list_obj course_obj) × Mem) with ⟨_ | cs, mc⟩
      · simp [h1, h2, h3] at h
      · have h3' : malloc_block mb = (some cs.block, mc) ∧ cs.elems = [] := by
          unfold list_init_mem at h3
          split at h3
          · next b1 mx heq =>
            simp only [Prod.mk.injEq, Option.some.injEq] at h3
            obtain ⟨hcs, hmc⟩ := h3
            subst hcs hmc
            exact ⟨heq, rfl⟩
          · simp at h3
        obtain ⟨hb3, hn3, hf3⟩ := malloc_block_some h3'.1
        rcases h4 : clone_courses_mem mc cs orig.courses.elems with ⟨_ | cs1, md⟩
        · simp [h1, h2, h3, h4] at h
        · obtain ⟨hr4, hn4, hf4⟩ := clone_courses_mem_some h4
          simp only [h1, h2, h3, h4, Prod.mk.injEq, Option.some.injEq] at h
          obtain ⟨hr, hm⟩ := h
          subst hr hm
          refine ⟨?_, by omega, by rw [hf4, hf3, hf2, hf]⟩
          rw [hr4, hb, hb2, hb3, h3'.2, hn3, hn2, hn]
          simp [Nat.add_assoc]

theorem fresh_courses_val (n : ℕ) (l : List course_obj) :
    (fresh_courses n l).map course_obj.val = l.map course_obj.val ∧
      (fresh_courses n l).length = l.length := by
  induction l generalizing n with
  | nil => simp [fresh_courses]
  | cons c t ih => simp [fresh_courses, ih, course_obj.val]

theorem fresh_courses_blocks (n : ℕ) (l : List course_obj) :
    (fresh_courses n l).flatMap course_blocks = List.range' n (2 * l.length) := by
  induction l generalizing n with
  | nil => simp [fresh_courses]
  | cons c t ih =>
    have : 2 * (c :: t).length = 2 * t.length + 1 + 1 := by simp only [List.length_cons]; omega
    rw [this]
    simp [fresh_courses, course_blocks, ih, List.range'_succ]

/-- The blocks of a successful clone are the blocks that the allocator
handed out during the call, one after the other. -/
theorem clone_student_mem_blocks {m m1 : Mem} {orig r : student_obj}
    (h : clone_student_mem m orig = (some r, m1)) :
    student_blocks r = List.range' m.next (3 + 2 * orig.courses.elems.length) ∧
      m1.next = m.next + (3 + 2 * orig.courses.elems.length) := by
  obtain ⟨hr, hn, -⟩ := clone_student_mem_some h
  refine ⟨?_, by omega⟩
  rw [hr]
  simp only [student_blocks, fresh_courses_blocks]
  have : 3 + 2 * orig.courses.elems.length = 2 * orig.courses.elems.length + 1 + 1 + 1 := by
    omega
  rw [this]
  simp [List.range'_succ, Nat.add_assoc]

/-- An append to a course container keeps its block and its elements and
adds at most one element, whose blocks are new. -/
theorem push_back_course_blocks {m2 m3 : Mem} {cs l : list_obj course_obj} {x : course_obj}
    {r : Int} (h : list_push_back_mem clone_course_mem m2 cs x = (r, l, m3)) :
    l.block = cs.block ∧
      ∀ b ∈ l.elems.flatMap course_blocks,
        b ∈ cs.elems.flatMap course_blocks ∨ m2.next ≤ b := by
  unfold list_push_back_mem at h
  rcases hcl : clone_course_mem m2 x with ⟨_ | cl, ma⟩
  · simp only [hcl, Prod.mk.injEq] at h
    obtain ⟨-, hl, -⟩ := h
    subst hl
    exact ⟨rfl, fun b hb => Or.inl hb⟩
  · obtain ⟨hr, -, -⟩ := clone_course_mem_some hcl
    simp only [hcl, Prod.mk.injEq] at h
    obtain ⟨-, hl, -⟩ := h
    subst hl
    refine ⟨rfl, fun b hb => ?_⟩
    simp only [List.flatMap_append, List.mem_append, List.flatMap_cons, List.flatMap_nil,
      List.append_nil] at hb
    rcases hb with hb | hb
    · exact Or.inl hb
    · right
      rw [hr] at hb
      simp only [course_blocks, List.mem_cons, List.mem_singleton, List.not_mem_nil,
        or_false] at hb
      omega

/-- C16. Let `clone_student` succeed on a student whose blocks were all
handed out before the call.  Then the clone holds the same name, the same id
and a course list of the same length with the same names and grades in the
same order.  It is independent of the original: its record, its name, its
course container and the record and name of each of its courses are blocks
handed out during the call, pairwise distinct and none of them a block of
the original; destroying the original frees no block of the clone, and
destroying the clone frees no block of the original; and after an append to
the course list of the original (or of the clone) at any later time, the
two still have no block in common. -/
theorem clone_student_independent (m m1 : Mem) (orig clone : student_obj)
    (hold : ∀ b ∈ student_blocks orig, b < m.next)
    (hc : clone_student_mem m orig = (some clone, m1)) :
    clone.val = orig.val ∧
      clone.courses.elems.length = orig.courses.elems.length ∧
      (student_blocks clone).Nodup ∧
      (∀ b ∈ student_blocks clone, m.next ≤ b ∧ b < m1.next) ∧
      (∀ b ∈ student_blocks clone, b ∉ student_blocks orig) ∧
      (∀ (m2 : Mem) (b : ℕ), b ∈ student_blocks clone →
        b ∈ (destroy_student (some orig) m2).freed → b ∈ m2.freed) ∧
      (∀ (m2 : Mem) (b : ℕ), b ∈ student_blocks orig →
        b ∈ (destroy_student (some clone) m2).freed → b ∈ m2.freed) ∧
      (∀ (m2 m3 : Mem) (x : course_obj) (r : Int) (l : list_obj course_obj),
        m1.next ≤ m2.next →
        list_push_back_mem clone_course_mem m2 orig.courses x = (r, l, m3) →
        ∀ b ∈ student_blocks { orig with courses := l }, b ∉ student_blocks clone) ∧
      (∀ (m2 m3 : Mem) (x : course_obj) (r : Int) (l : list_obj course_obj),
        m1.next ≤ m2.next →
        list_push_back_mem clone_course_mem m2 clone.courses x = (r, l, m3) →
        ∀ b ∈ student_blocks { clone with courses := l }, b ∉ student_blocks orig) := by
  obtain ⟨hr, -, -⟩ := clone_student_mem_some hc
  obtain ⟨hblocks, hnext⟩ := clone_student_mem_blocks hc
  have hrange : ∀ b ∈ student_blocks clone, m.next ≤ b ∧ b < m1.next := by
    intro b hb
    rw [hblocks, List.mem_range'_1] at hb
    omega
  have hdisj : ∀ b ∈ student_blocks clone, b ∉ student_blocks orig := by
    intro b hb hbo
    have := hold b hbo
    have := (hrange b hb).1
    omega
  have hval := fresh_courses_val (m.next + 3) orig.courses.elems
  refine ⟨?_, ?_, ?_, hrange, hdisj, ?_, ?_, ?_, ?_⟩
  · rw [hr]
    simp [student_obj.val, hval.1]
  · rw [hr]
    exact hval.2
  · rw [hblocks]
    exact List.nodup_range' _ _
  · intro m2 b hb hfreed
    obtain ⟨fr, hperm, hfr⟩ := destroy_student_frees orig
    rw [hfr] at hfreed
    simp only [List.mem_append] at hfreed
    rcases hfreed with h1 | h1
    · exact h1
    · exact absurd (hperm.mem_iff.1 h1) (hdisj b hb)
  · intro m2 b hb hfreed
    obtain ⟨fr, hperm, hfr⟩ := destroy_student_frees clone
    rw [hfr] at hfreed
    simp only [List.mem_append] at hfreed
    rcases hfreed with h1 | h1
    · exact h1
    · exact absurd hb (hdisj b (hperm.mem_iff.1 h1))
  · intro m2 m3 x r l hlater hpush b hb hbc
    obtain ⟨hlb, hle⟩ := push_back_course_blocks hpush
    have hbr := hrange b hbc
    simp only [student_blocks, List.mem_cons] at hb
    have hbo : b ∈ student_blocks orig ∨ m2.next ≤ b := by
      rcases hb with rfl | rfl | rfl | hb
      · exact Or.inl (by simp [student_blocks])
      · exact Or.inl (by simp [student_blocks])
      · exact Or.inl (by simp [student_blocks, hlb])
      · rcases hle b hb with h1 | h1
        · exact Or.inl (by simp only [student_blocks, List.mem_cons]; exact Or.inr (Or.inr (Or.inr h1)))
        · exact Or.inr h1
    rcases hbo with h1 | h1
    · exact hdisj b hbc h1
    · omega
  · intro m2 m3 x r l hlater hpush b hb hbo
    obtain ⟨hlb, hle⟩ := push_back_course_blocks hpush
    have hbold := hold b hbo
    simp only [student_blocks, List.mem_cons] at hb
    have hbc : b ∈ student_blocks clone ∨ m2.next ≤ b := by
      rcases hb with rfl | rfl | rfl | hb
      · exact Or.inl (by simp [student_blocks])
      · exact Or.inl (by simp [student_blocks])
      · exact Or.inl (by simp [student_blocks, hlb])
      · rcases hle b hb with h1 | h1
        · exact Or.inl (by simp only [student_blocks, List.mem_cons]; exact Or.inr (Or.inr (Or.inr h1)))
        · exact Or.inr h1
    rcases hbc with h1 | h1
    · exact hdisj b h1 hbo
    · have := hrange clone.block (by simp [student_blocks])
      omega

theorem clone_student_independent_witness :
    clone_student_mem ⟨none, 7, []⟩ alice_obj = (some alice_clone, ⟨none, 14, []⟩) ∧
      alice_clone.val = alice_obj.val ∧
      (student_blocks alice_clone).Nodup ∧
      (∀ b ∈ student_blocks alice_clone, b ∉ student_blocks alice_obj) := by
  have hold : ∀ b ∈ student_blocks alice_obj, b < (Mem.mk none 7 []).next := by decide
  have hc : clone_student_mem ⟨none, 7, []⟩ alice_obj = (some alice_clone, ⟨none, 14, []⟩) := by
    decide
  have h := clone_student_independent ⟨none, 7, []⟩ ⟨none, 14, []⟩ alice_obj alice_clone hold hc
  exact ⟨hc, h.1, h.2.2.1, h.2.2.2.2.1⟩

/-! ## The two embeddings of the clone functions agree -/

theorem clone_course_mem_val (m : Mem) (c : course_obj) :
    (clone_course_mem m c).1.map course_obj.val = (clone_course m.plan c.val).1 ∧
      (clone_course_mem m c).2.plan = (clone_course m.plan c.val).2 := by
  rcases m with ⟨_ | _ | _ | k, n, fr⟩ <;>
    simp [clone_course_mem, clone_course, malloc_block, malloc, string_duplicate,
      string_duplicate_mem, free_block, course_obj.val]

theorem list_destroy_courses_plan (l : list_obj course_obj) (m : Mem) :
    (list_destroy destroy_course (some l) m).plan = m.plan := by
  simp [list_destroy, destroy_courses_foldl, free_block]

theorem clone_courses_mem_val (l : List course_obj) (m : Mem) (acc : list_obj course_obj) :
    (clone_courses_mem m acc l).1.map (fun r => r.elems.map course_obj.val)
        = (clone_courses m.plan (acc.elems.map course_obj.val) (l.map course_obj.val)).1 ∧
      (clone_courses_mem m acc l).2.plan
        = (clone_courses m.plan (acc.elems.map course_obj.val) (l.map course_obj.val)).2 := by
  induction l generalizing m acc with
  | nil => simp [clone_courses_mem, clone_courses]
  | cons c t ih =>
    obtain ⟨h1, h2⟩ := clone_course_mem_val m c
    rcases hm : clone_course_mem m c with ⟨_ | cl, ma⟩
    · rw [hm] at h1 h2
      rcases hv : clone_course m.plan c.val with ⟨_ | cv, pa⟩
      · rw [hv] at h2
        simp only at h2
        simp [clone_courses_mem, clone_courses, list_push_back_mem, list_push_back, hm, hv,
          list_destroy_courses_plan, h2]
      · rw [hv] at h1
        simp at h1
    · rw [hm] at h1 h2
      rcases hv : clone_course m.plan c.val with ⟨_ | cv, pa⟩
      · rw [hv] at h1
        simp at h1
      · rw [hv] at h1 h2
        simp only [Option.map_some', Option.some.injEq] at h1 h2
        have := ih ma ⟨acc.block, acc.elems ++ [cl]⟩
        simp only [List.map_append, List.map_cons, List.map_nil, h1, h2] at this
        simp [clone_courses_mem, clone_courses, list_push_back_mem, list_push_back, hm, hv,
          this]

/-- Forgetting the blocks, `clone_student_mem` is `clone_student`: under the
same allocation plan both fail or both succeed, with the same student. -/
theorem clone_student_mem_val (m : Mem) (orig : student_obj) :
    (clone_student_mem m orig).1.map student_obj.val
      = (clone_student m.plan orig.val).1 := by
  rcases m with ⟨_ | _ | _ | _ | k, n, fr⟩
  · have h := clone_courses_mem_val orig.courses.elems ⟨none, n + 1 + 1 + 1, fr⟩
      ⟨n + 1 + 1, []⟩
    rcases hm : clone_courses_mem ⟨none, n + 1 + 1 + 1, fr⟩ ⟨n + 1 + 1, []⟩
      orig.courses.elems with ⟨_ | cs1, md⟩ <;>
    rcases hv : clone_courses none [] (orig.courses.elems.map course_obj.val)
      with ⟨_ | cv, pa⟩ <;>
    simp_all [clone_student_mem, clone_student, malloc_block, malloc, string_duplicate,
      string_duplicate_mem, list_init_mem, list_init, free_block, student_obj.val]
  · simp [clone_student_mem, clone_student, malloc_block, malloc]
  · simp [clone_student_mem, clone_student, malloc_block, malloc, string_duplicate,
      string_duplicate_mem, free_block]
  · simp [clone_student_mem, clone_student, malloc_block, malloc, string_duplicate,
      string_duplicate_mem, list_init_mem, list_init, free_block]
  · have h := clone_courses_mem_val orig.courses.elems ⟨some k, n + 1 + 1 + 1, fr⟩
      ⟨n + 1 + 1, []⟩
    rcases hm : clone_courses_mem ⟨some k, n + 1 + 1 + 1, fr⟩ ⟨n + 1 + 1, []⟩
      orig.courses.elems with ⟨_ | cs1, md⟩ <;>
    rcases hv : clone_courses (some k) [] (orig.courses.elems.map course_obj.val)
      with ⟨_ | cv, pa⟩ <;>
    simp_all [clone_student_mem, clone_student, malloc_block, malloc, string_duplicate,
      string_duplicate_mem, list_init_mem, list_init, free_block, student_obj.val]

end Grades
